import Mathlib

/-!
Verification of the SOAP-note cleanup engine `_clean_soap_output`
(`backend/services/reasoning.py`).  The function is embedded shallowly
over `List Char`: each Python string operation is translated to an
executable Lean function with the same behavior, and the claims of the
specification are settled as theorems about the embedding.
-/

namespace SoapClean

/-- The characters removed by Python `str.strip()` (Python whitespace:
ASCII whitespace plus the Unicode space separators recognized by
`str.isspace`). -/
def pyWhitespace : List Char :=
  [' ', '\t', '\n', '\r', '\x0b', '\x0c',
   '\x1c', '\x1d', '\x1e', '\x1f', '\x85', '\xa0',
   ' ', ' ', ' ', ' ', ' ', ' ', ' ',
   ' ', ' ', ' ', ' ', ' ', ' ', ' ',
   ' ', ' ', '　']

/-- Whether `c` is Python whitespace. -/
def isWS (c : Char) : Bool := pyWhitespace.contains c

/-- Drop leading Python whitespace (`str.lstrip()`). -/
def dropLead (l : List Char) : List Char := l.dropWhile isWS

/-- Drop trailing Python whitespace (`str.rstrip()`). -/
def dropTrail (l : List Char) : List Char := (l.reverse.dropWhile isWS).reverse

/-- Python `str.strip()`. -/
def pyStrip (l : List Char) : List Char := dropTrail (dropLead l)

/-- Python `text.split('\n')`: split into the (nonempty) list of
newline-separated segments, keeping empty segments. -/
def splitNl : List Char → List (List Char)
  | [] => [[]]
  | c :: cs =>
    if c = '\n' then [] :: splitNl cs
    else (c :: (splitNl cs).headD []) :: (splitNl cs).tail

/-- Python `'\n'.join(lines)`. -/
def joinNl : List (List Char) → List Char
  | [] => []
  | [l] => l
  | l :: rest => l ++ '\n' :: joinNl rest

/-- The fixed `junk_markers` table of `_clean_soap_output`. -/
def junkMarkers : List (List Char) :=
  ["Patient transcription:".data,
   "Generate a comprehensive".data,
   "Severe emotional distress detected".data,
   "Detected emotion:".data,
   "Summarize the case".data,
   "Patient said:".data,
   "The patient said:".data]

/-- `any(marker in line_stripped for marker in junk_markers)`. -/
def hasJunk (ls : List Char) : Bool :=
  junkMarkers.any (fun m => decide (m <:+: ls))

/-- `line_stripped.startswith('- ') and ':' in line_stripped`. -/
def isHeaderB (ls : List Char) : Bool :=
  decide ("- ".data <+: ls) && decide (':' ∈ ls)

/-- `line_stripped.split(':')[0].strip()`: the section key of a header
line (the text before the first colon, stripped). -/
def sectionKey (ls : List Char) : List Char :=
  pyStrip (ls.takeWhile (fun c => c ≠ ':'))

/-- The per-line pass of `_clean_soap_output`.  `seen` is the
`seen_sections` set (as a list); `flag` records whether
`cleaned_lines` is nonempty so far (the only fact about the
accumulator the Python loop consults); halting on a junk marker is
modelled by returning the lines accepted so far, i.e. `[]` for the
remainder. -/
def cleanLines (seen : List (List Char)) (flag : Bool) :
    List (List Char) → List (List Char)
  | [] => []
  | line :: rest =>
    let ls := pyStrip line
    if hasJunk ls then []
    else if isHeaderB ls then
      if sectionKey ls ∈ seen then cleanLines seen flag rest
      else line :: cleanLines (sectionKey ls :: seen) true rest
    else if ls ≠ [] then line :: cleanLines seen true rest
    else if flag then [] :: cleanLines seen flag rest
    else cleanLines seen flag rest

/-- One step of `re.sub(r'\n{3,}', '\n\n', text)`: `k` counts the
consecutive newlines already emitted; a newline arriving when two have
just been emitted is dropped. -/
def collapseNlAux : Nat → List Char → List Char
  | _, [] => []
  | k, c :: cs =>
    if c = '\n' then
      if 2 ≤ k then collapseNlAux k cs
      else c :: collapseNlAux (k + 1) cs
    else c :: collapseNlAux 0 cs

/-- `re.sub(r'\n{3,}', '\n\n', text)`: collapse every run of three or
more newlines to exactly two. -/
def collapseNl (l : List Char) : List Char := collapseNlAux 0 l

/-- Python `text.find(pat)` (as an `Option`: `none` when absent). -/
def findSub (pat : List Char) : List Char → Option Nat
  | [] => if pat <+: ([] : List Char) then some 0 else none
  | c :: t =>
    if pat <+: c :: t then some 0
    else (findSub pat t).map (fun n => n + 1)

/-- The final sweep of `_clean_soap_output`: for the first junk marker
(in table order) contained in the text, truncate at its first
occurrence and strip. -/
def finalSweep (t : List Char) : List Char :=
  match junkMarkers.find? (fun m => decide (m <:+: t)) with
  | none => t
  | some m =>
    match findSub m t with
    | some i => pyStrip (t.take i)
    | none => t

/-- `_clean_soap_output` over `List Char`: per-line pass, join,
blank-line collapsing, final junk sweep, final strip. -/
def clean (t : List Char) : List Char :=
  pyStrip (finalSweep (collapseNl (joinNl (cleanLines [] false (splitNl t)))))

/-- The variant of `clean` with the final junk sweep removed
(used for the refinement claim). -/
def cleanNoSweep (t : List Char) : List Char :=
  pyStrip (collapseNl (joinNl (cleanLines [] false (splitNl t))))

/-- `_clean_soap_output` on strings. -/
def cleanStr (s : String) : String := ⟨clean s.data⟩

/-- The sweep-free variant on strings. -/
def cleanNoSweepStr (s : String) : String := ⟨cleanNoSweep s.data⟩

example : cleanStr "- Subjective: tired\n- Plan: rest\nPatient transcription: blah blah" =
    "- Subjective: tired\n- Plan: rest" := by decide

example : cleanStr "Detected emotion: anxious" = "" := by decide

example : cleanStr "- Subjective: A\n- Subjective: B\n- Plan: C" =
    "- Subjective: A\n- Plan: C" := by decide

example : cleanStr "**Subjective:** patient tired" = "**Subjective:** patient tired" := by
  decide

example : cleanStr "" = "" := by decide

example : cleanStr "   \n\n  " = "" := by decide

example : cleanStr "a\n\n\n\n\nb" = "a\n\nb" := by decide

example : cleanStr "- : first\n- : second" = "- : first" := by decide

example : sectionKey (pyStrip "- : some text".data) = ['-'] := by decide

/-! ### Facts about the junk-marker table -/

/-- Every junk marker is a nonempty string. -/
theorem markers_ne_nil : ∀ m ∈ junkMarkers, m ≠ [] := by decide

/-- No junk marker contains a newline. -/
theorem markers_no_nl : ∀ m ∈ junkMarkers, '\n' ∉ m := by decide

/-- No junk marker starts with whitespace. -/
theorem markers_head_not_ws : ∀ m ∈ junkMarkers, isWS (m.headD 'x') = false := by decide

/-- No junk marker ends with whitespace. -/
theorem markers_last_not_ws : ∀ m ∈ junkMarkers, isWS (m.reverse.headD 'x') = false := by
  decide

/-! ### Strip lemmas -/

theorem dropLead_suffix (l : List Char) : dropLead l <:+ l :=
  List.dropWhile_suffix isWS

theorem infix_of_dropLead (l : List Char) : dropLead l <:+: l :=
  (dropLead_suffix l).isInfix

theorem infix_of_dropTrail (l : List Char) : dropTrail l <:+: l := by
  have h : (l.reverse.dropWhile isWS).reverse <:+: l.reverse.reverse :=
    List.reverse_infix.mpr (List.dropWhile_suffix isWS).isInfix
  simpa [dropTrail] using h

theorem infix_of_pyStrip (l : List Char) : pyStrip l <:+: l :=
  (infix_of_dropTrail (dropLead l)).trans (infix_of_dropLead l)

theorem dropLead_eq_nil_iff {l : List Char} :
    dropLead l = [] ↔ ∀ c ∈ l, isWS c := by
  simp [dropLead, List.dropWhile_eq_nil_iff]

theorem dropTrail_eq_nil_iff {l : List Char} :
    dropTrail l = [] ↔ ∀ c ∈ l, isWS c := by
  simp [dropTrail, List.dropWhile_eq_nil_iff]

theorem pyStrip_eq_nil_iff {l : List Char} :
    pyStrip l = [] ↔ ∀ c ∈ l, isWS c := by
  constructor
  · intro h c hc
    rw [pyStrip, dropTrail_eq_nil_iff] at h
    rw [← List.takeWhile_append_dropWhile isWS l] at hc
    rcases List.mem_append.mp hc with h1 | h1
    · exact List.mem_takeWhile_imp h1
    · exact h c h1
  · intro h
    have h1 : dropLead l = [] := dropLead_eq_nil_iff.mpr h
    simp [pyStrip, h1, dropTrail]

/-- If an infix starts with a character on which `p` is false, it survives
`dropWhile p`. -/
theorem infix_dropWhile_of_head_neg {p : Char → Bool} {c : Char} {m l : List Char}
    (hc : p c = false) (h : c :: m <:+: l) : c :: m <:+: l.dropWhile p := by
  induction l with
  | nil => simp at h
  | cons a l ih =>
    by_cases hpa : p a
    · rw [ List.dropWhile_cons_of_pos hpa]
      rcases List.infix_cons_iff.mp h with hpre | hinf
      · rcases List.prefix_cons_iff.mp hpre with h0 | ⟨t, ht, _⟩
        · exact absurd h0 (by simp)
        · cases ht
          rw [hpa] at hc
          exact absurd hc (by simp)
      · exact ih hinf
    · rwa [ List.dropWhile_cons_of_neg hpa]

/-- A junk-marker occurrence in a line survives `str.strip()`. -/
theorem marker_survives_pyStrip {m l : List Char} (hm : m ∈ junkMarkers)
    (h : m <:+: l) : m <:+: pyStrip l := by
  obtain ⟨c, t, rfl⟩ : ∃ c t, m = c :: t := by
    cases m with
    | nil => exact absurd rfl (markers_ne_nil _ hm)
    | cons c t => exact ⟨c, t, rfl⟩
  have hc : isWS c = false := by simpa using markers_head_not_ws _ hm
  have h1 : c :: t <:+: dropLead l := infix_dropWhile_of_head_neg hc h
  obtain ⟨c', t', hrev⟩ : ∃ c' t', (c :: t).reverse = c' :: t' := by
    cases hr : (c :: t).reverse with
    | nil => exact absurd (List.reverse_eq_nil_iff.mp hr) (by simp)
    | cons c' t' => exact ⟨c', t', rfl⟩
  have hc' : isWS c' = false := by
    have := markers_last_not_ws _ hm
    rw [hrev] at this
    simpa using this
  have h2 : (c :: t).reverse <:+: (dropLead l).reverse :=
    List.reverse_infix.mpr h1
  rw [hrev] at h2
  have h3 : c' :: t' <:+: (dropLead l).reverse.dropWhile isWS :=
    infix_dropWhile_of_head_neg hc' h2
  rw [← hrev] at h3
  have h4 : (c :: t).reverse <:+: ((dropLead l).reverse.dropWhile isWS).reverse.reverse := by
    simpa using h3
  have h5 : c :: t <:+: ((dropLead l).reverse.dropWhile isWS).reverse :=
    List.reverse_infix.mp h4
  exact h5

/-- A marker occurs in a line iff it occurs in the stripped line. -/
theorem marker_infix_pyStrip_iff {m l : List Char} (hm : m ∈ junkMarkers) :
    m <:+: l ↔ m <:+: pyStrip l :=
  ⟨marker_survives_pyStrip hm, fun h => h.trans (infix_of_pyStrip l)⟩

theorem hasJunk_iff {ls : List Char} :
    hasJunk ls = true ↔ ∃ m ∈ junkMarkers, m <:+: ls := by
  simp [hasJunk, List.any_eq_true]

theorem hasJunk_eq_false_iff {ls : List Char} :
    hasJunk ls = false ↔ ∀ m ∈ junkMarkers, ¬ m <:+: ls := by
  rw [← Bool.not_eq_true, hasJunk_iff]
  push_neg
  rfl

/-! ### Split and join lemmas -/

theorem joinNl_cons_cons (l y : List Char) (rest : List (List Char)) :
    joinNl (l :: y :: rest) = l ++ '\n' :: joinNl (y :: rest) := rfl

theorem joinNl_cons {l : List Char} {rest : List (List Char)} (h : rest ≠ []) :
    joinNl (l :: rest) = l ++ '\n' :: joinNl rest := by
  cases rest with
  | nil => exact absurd rfl h
  | cons y t => rfl

theorem splitNl_ne_nil (t : List Char) : splitNl t ≠ [] := by
  cases t with
  | nil => simp [splitNl]
  | cons c cs =>
    by_cases h : c = '\n' <;> simp [splitNl, h]

theorem splitNl_cons_of_ne {c : Char} (cs : List Char) (h : c ≠ '\n') :
    splitNl (c :: cs) = (c :: (splitNl cs).headD []) :: (splitNl cs).tail := by
  simp [splitNl, h]

theorem splitNl_cons_nl (cs : List Char) :
    splitNl ('\n' :: cs) = [] :: splitNl cs := by
  simp [splitNl]

theorem joinNl_splitNl (t : List Char) : joinNl (splitNl t) = t := by
  induction t with
  | nil => rfl
  | cons c cs ih =>
    by_cases h : c = '\n'
    · subst h
      rw [splitNl_cons_nl, joinNl_cons (splitNl_ne_nil cs), ih]
      rfl
    · rw [splitNl_cons_of_ne cs h]
      obtain ⟨hd, tl, heq⟩ : ∃ hd tl, splitNl cs = hd :: tl := by
        cases hs : splitNl cs with
        | nil => exact absurd hs (splitNl_ne_nil cs)
        | cons hd tl => exact ⟨hd, tl, rfl⟩
      rw [heq] at ih ⊢
      simp only [List.headD, List.tail]
      cases tl with
      | nil =>
        have h2 : hd = cs := ih
        show c :: hd = c :: cs
        rw [h2]
      | cons y t2 =>
        rw [joinNl_cons_cons] at ih ⊢
        rw [List.cons_append, ih]

theorem no_nl_of_mem_splitNl {t l : List Char} (h : l ∈ splitNl t) : '\n' ∉ l := by
  induction t generalizing l with
  | nil =>
    simp [splitNl] at h
    simp [h]
  | cons c cs ih =>
    by_cases hc : c = '\n'
    · subst hc
      rw [splitNl_cons_nl] at h
      rcases List.mem_cons.mp h with rfl | h2
      · simp
      · exact ih h2
    · rw [splitNl_cons_of_ne cs hc] at h
      obtain ⟨hd, tl, heq⟩ : ∃ hd tl, splitNl cs = hd :: tl := by
        cases hs : splitNl cs with
        | nil => exact absurd hs (splitNl_ne_nil cs)
        | cons hd tl => exact ⟨hd, tl, rfl⟩
      rw [heq] at h
      simp only [List.headD, List.tail] at h
      rcases List.mem_cons.mp h with rfl | h2
      · intro hmem
        rcases List.mem_cons.mp hmem with h3 | h3
        · exact hc h3.symm
        · exact ih (heq ▸ List.mem_cons_self hd tl) h3
      · exact ih (heq ▸ List.mem_cons_of_mem hd h2)

theorem splitNl_of_no_nl {l : List Char} (h : '\n' ∉ l) : splitNl l = [l] := by
  induction l with
  | nil => rfl
  | cons c cs ih =>
    have hc : c ≠ '\n' := fun hc => h (hc ▸ List.mem_cons_self c cs)
    have hcs : '\n' ∉ cs := fun h2 => h (List.mem_cons_of_mem c h2)
    rw [splitNl_cons_of_ne cs hc, ih hcs]
    rfl

theorem splitNl_append_nl {a r : List Char} (h : '\n' ∉ a) :
    splitNl (a ++ '\n' :: r) = a :: splitNl r := by
  induction a with
  | nil => simpa using splitNl_cons_nl r
  | cons c a2 ih =>
    have hc : c ≠ '\n' := fun hc => h (hc ▸ List.mem_cons_self c a2)
    have ha2 : '\n' ∉ a2 := fun h2 => h (List.mem_cons_of_mem c h2)
    rw [List.cons_append, splitNl_cons_of_ne _ hc, ih ha2]
    rfl

theorem splitNl_joinNl {ys : List (List Char)} (hne : ys ≠ [])
    (hnl : ∀ l ∈ ys, '\n' ∉ l) : splitNl (joinNl ys) = ys := by
  induction ys with
  | nil => exact absurd rfl hne
  | cons l rest ih =>
    cases rest with
    | nil => exact splitNl_of_no_nl (hnl l (List.mem_cons_self l []))
    | cons y t =>
      rw [joinNl_cons_cons, splitNl_append_nl (hnl l (List.mem_cons_self l _))]
      rw [ih (by simp) (fun x hx => hnl x (List.mem_cons_of_mem l hx))]

theorem infix_joinNl_of_mem {ys : List (List Char)} {l : List Char}
    (h : l ∈ ys) : l <:+: joinNl ys := by
  induction ys with
  | nil => simp at h
  | cons x rest ih =>
    rcases List.mem_cons.mp h with rfl | h2
    · cases rest with
      | nil => exact List.infix_rfl
      | cons y t =>
        rw [joinNl_cons_cons]
        exact (List.prefix_append l ('\n' :: joinNl (y :: t))).isInfix
    · have hrest : rest ≠ [] := by
        intro h0
        rw [h0] at h2
        simp at h2
      rw [joinNl_cons hrest]
      exact (ih h2).trans
        ((( List.suffix_cons '\n' (joinNl rest)).trans
          (List.suffix_append x ('\n' :: joinNl rest))).isInfix)

/-! ### Occurrences across append and collapse -/

theorem prefix_of_prefix_append_cons {m a b : List Char} {c : Char}
    (hc : c ∉ m) (h : m <+: a ++ c :: b) : m <+: a := by
  induction m generalizing a with
  | nil => exact List.nil_prefix
  | cons x m2 ih =>
    cases a with
    | nil =>
      have hx : x = c := (List.cons_prefix_cons.mp h).1
      exact absurd (hx ▸ List.mem_cons_self x m2) hc
    | cons y a2 =>
      obtain ⟨hxy, h2⟩ := List.cons_prefix_cons.mp h
      subst hxy
      exact List.cons_prefix_cons.mpr
        ⟨rfl, ih (fun hm => hc (List.mem_cons_of_mem x hm)) h2⟩

theorem infix_append_cons_split {m a b : List Char} {c : Char}
    (hc : c ∉ m) (h : m <:+: a ++ c :: b) : m <:+: a ∨ m <:+: b := by
  induction a with
  | nil =>
    rcases List.infix_cons_iff.mp h with hpre | hinf
    · rcases List.prefix_cons_iff.mp hpre with rfl | ⟨t, rfl, _⟩
      · exact Or.inl List.nil_infix
      · exact absurd (List.mem_cons_self c t) hc
    · exact Or.inr hinf
  | cons y a2 ih =>
    have h2 : m <:+: y :: (a2 ++ c :: b) := by simpa using h
    rcases List.infix_cons_iff.mp h2 with hpre | hinf
    · rcases List.prefix_cons_iff.mp hpre with rfl | ⟨t, rfl, ht⟩
      · exact Or.inl List.nil_infix
      · have h3 : t <+: a2 :=
          prefix_of_prefix_append_cons (fun hm => hc (List.mem_cons_of_mem y hm)) ht
        exact Or.inl (List.cons_prefix_cons.mpr ⟨rfl, h3⟩).isInfix
    · rcases ih hinf with h1 | h1
      · exact Or.inl ( List.infix_cons_iff.mpr (Or.inr h1))
      · exact Or.inr h1

theorem not_infix_joinNl {m : List Char} {ys : List (List Char)}
    (hnl : '\n' ∉ m) (hne : m ≠ []) (h : ∀ l ∈ ys, ¬ m <:+: l) :
    ¬ m <:+: joinNl ys := by
  induction ys with
  | nil =>
    intro hcon
    exact hne ( List.infix_nil.mp hcon)
  | cons l rest ih =>
    cases rest with
    | nil => exact h l (List.mem_cons_self l [])
    | cons y t =>
      rw [joinNl_cons_cons]
      intro hcon
      rcases infix_append_cons_split hnl hcon with h1 | h1
      · exact h l (List.mem_cons_self l _) h1
      · exact ih (fun x hx => h x (List.mem_cons_of_mem l hx)) h1

/-- Collapsing newline runs only removes newline characters, so any
newline-free infix of the output occurs in the input (prefix form). -/
theorem prefix_collapseNlAux {m : List Char} (hm : '\n' ∉ m) :
    ∀ {l : List Char} {k : Nat}, k ≤ 1 → m <+: collapseNlAux k l → m <+: l := by
  induction m with
  | nil => exact fun _ _ => List.nil_prefix
  | cons d m2 ih =>
    intro l k hk h
    cases l with
    | nil => simp [collapseNlAux] at h
    | cons c cs =>
      by_cases hc : c = '\n'
      · subst hc
        have h2 : ¬ (2 ≤ k) := by omega
        rw [collapseNlAux, if_pos rfl, if_neg h2] at h
        have hd : d = '\n' := (List.cons_prefix_cons.mp h).1
        exact absurd (hd ▸ List.mem_cons_self d m2) hm
      · rw [collapseNlAux, if_neg hc] at h
        obtain ⟨hdc, h2⟩ := List.cons_prefix_cons.mp h
        subst hdc
        exact List.cons_prefix_cons.mpr
          ⟨rfl, ih (fun hmem => hm (List.mem_cons_of_mem d hmem)) (by omega) h2⟩

/-- Collapsing newline runs creates no new newline-free infixes. -/
theorem infix_collapseNlAux {m : List Char} (hm : '\n' ∉ m) :
    ∀ {l : List Char} {k : Nat}, m <:+: collapseNlAux k l → m <:+: l := by
  intro l
  induction l with
  | nil => intro k h; simpa [collapseNlAux] using h
  | cons c cs ih =>
    intro k h
    by_cases hc : c = '\n'
    · subst hc
      by_cases h2 : 2 ≤ k
      · rw [collapseNlAux, if_pos rfl, if_pos h2] at h
        exact List.infix_cons_iff.mpr (Or.inr (ih h))
      · rw [collapseNlAux, if_pos rfl, if_neg h2] at h
        rcases List.infix_cons_iff.mp h with hpre | hinf
        · rcases List.prefix_cons_iff.mp hpre with rfl | ⟨t, rfl, _⟩
          · exact List.nil_infix
          · exact absurd (List.mem_cons_self '\n' t) hm
        · exact List.infix_cons_iff.mpr (Or.inr (ih hinf))
    · rw [collapseNlAux, if_neg hc] at h
      rcases List.infix_cons_iff.mp h with hpre | hinf
      · rcases List.prefix_cons_iff.mp hpre with rfl | ⟨t, rfl, ht⟩
        · exact List.nil_infix
        · have h3 : t <+: cs :=
            prefix_collapseNlAux (fun hmem => hm (List.mem_cons_of_mem c hmem))
              (by omega) ht
          exact (List.cons_prefix_cons.mpr ⟨rfl, h3⟩).isInfix
      · exact List.infix_cons_iff.mpr (Or.inr (ih hinf))

theorem infix_collapseNl {m l : List Char} (hm : '\n' ∉ m)
    (h : m <:+: collapseNl l) : m <:+: l :=
  infix_collapseNlAux hm h

/-! ### Structure of the per-line pass -/

theorem cleanLines_nil (seen : List (List Char)) (flag : Bool) :
    cleanLines seen flag [] = [] := rfl

theorem cleanLines_cons (seen : List (List Char)) (flag : Bool)
    (line : List Char) (rest : List (List Char)) :
    cleanLines seen flag (line :: rest) =
      if hasJunk (pyStrip line) then []
      else if isHeaderB (pyStrip line) then
        if sectionKey (pyStrip line) ∈ seen then cleanLines seen flag rest
        else line :: cleanLines (sectionKey (pyStrip line) :: seen) true rest
      else if pyStrip line ≠ [] then line :: cleanLines seen true rest
      else if flag then [] :: cleanLines seen flag rest
      else cleanLines seen flag rest := rfl

theorem isHeaderB_ne_nil {ls : List Char} (h : isHeaderB ls = true) : ls ≠ [] := by
  intro h0
  subst h0
  simp [isHeaderB] at h

/-- Every line accepted by the per-line pass is either the literal empty
line (inserted for blank input lines) or an input line that is nonblank
and junk-free after stripping. -/
theorem cleanLines_mem {seen : List (List Char)} {flag : Bool}
    {lines : List (List Char)} {l : List Char}
    (h : l ∈ cleanLines seen flag lines) :
    l = [] ∨ (l ∈ lines ∧ pyStrip l ≠ [] ∧ hasJunk (pyStrip l) = false) := by
  induction lines generalizing seen flag with
  | nil => simp [cleanLines_nil] at h
  | cons line rest ih =>
    rw [cleanLines_cons] at h
    by_cases hj : hasJunk (pyStrip line) = true
    · simp [hj] at h
    · rw [if_neg (by simpa using hj)] at h
      by_cases hh : isHeaderB (pyStrip line) = true
      · rw [if_pos hh] at h
        by_cases hs : sectionKey (pyStrip line) ∈ seen
        · rw [if_pos hs] at h
          rcases ih h with h1 | ⟨h1, h2⟩
          · exact Or.inl h1
          · exact Or.inr ⟨List.mem_cons_of_mem line h1, h2⟩
        · rw [if_neg hs] at h
          rcases List.mem_cons.mp h with rfl | h2
          · exact Or.inr ⟨List.mem_cons_self l rest, isHeaderB_ne_nil hh, by simpa using hj⟩
          · rcases ih h2 with h1 | ⟨h1, h3⟩
            · exact Or.inl h1
            · exact Or.inr ⟨List.mem_cons_of_mem line h1, h3⟩
      · rw [if_neg hh] at h
        by_cases hb : pyStrip line ≠ []
        · rw [if_pos hb] at h
          rcases List.mem_cons.mp h with rfl | h2
          · exact Or.inr ⟨List.mem_cons_self l rest, hb, by simpa using hj⟩
          · rcases ih h2 with h1 | ⟨h1, h3⟩
            · exact Or.inl h1
            · exact Or.inr ⟨List.mem_cons_of_mem line h1, h3⟩
        · rw [if_neg hb] at h
          by_cases hf : flag = true
          · rw [if_pos hf] at h
            rcases List.mem_cons.mp h with rfl | h2
            · exact Or.inl rfl
            · rcases ih h2 with h1 | ⟨h1, h3⟩
              · exact Or.inl h1
              · exact Or.inr ⟨List.mem_cons_of_mem line h1, h3⟩
          · rw [if_neg hf] at h
            rcases ih h with h1 | ⟨h1, h3⟩
            · exact Or.inl h1
            · exact Or.inr ⟨List.mem_cons_of_mem line h1, h3⟩

/-! ### No junk marker survives into the output -/

theorem cleanLines_marker_free {seen : List (List Char)} {flag : Bool}
    {lines : List (List Char)} {l : List Char} {m : List Char}
    (hm : m ∈ junkMarkers) (hl : l ∈ cleanLines seen flag lines) :
    ¬ m <:+: l := by
  intro hcon
  rcases cleanLines_mem hl with rfl | ⟨_, _, hjunk⟩
  · exact markers_ne_nil m hm ( List.infix_nil.mp hcon)
  · exact (hasJunk_eq_false_iff.mp hjunk) m hm (marker_survives_pyStrip hm hcon)

/-- Before the final sweep, the cleaned text contains no junk marker. -/
theorem marker_free_pre_sweep (t : List Char) :
    ∀ m ∈ junkMarkers,
      ¬ m <:+: collapseNl (joinNl (cleanLines [] false (splitNl t))) := by
  intro m hm hcon
  have h1 : m <:+: joinNl (cleanLines [] false (splitNl t)) :=
    infix_collapseNl (markers_no_nl m hm) hcon
  exact not_infix_joinNl (markers_no_nl m hm) (markers_ne_nil m hm)
    (fun l hl => cleanLines_marker_free hm hl) h1

theorem finalSweep_eq_self {t : List Char}
    (h : ∀ m ∈ junkMarkers, ¬ m <:+: t) : finalSweep t = t := by
  have hfind : junkMarkers.find? (fun m => decide (m <:+: t)) = none := by
    rw [List.find?_eq_none]
    intro m hm
    simpa using h m hm
  simp only [finalSweep, hfind]

/-! ### Truncation at the first junk line -/

theorem cleanLines_takeWhile_junk (seen : List (List Char)) (flag : Bool)
    (lines : List (List Char)) :
    cleanLines seen flag lines =
      cleanLines seen flag (lines.takeWhile (fun l => !hasJunk (pyStrip l))) := by
  induction lines generalizing seen flag with
  | nil => rfl
  | cons line rest ih =>
    by_cases hj : hasJunk (pyStrip line) = true
    · rw [List.takeWhile_cons_of_neg (by simp [hj]), cleanLines_cons, if_pos hj,
        cleanLines_nil]
    · rw [List.takeWhile_cons_of_pos (by simp [hj]), cleanLines_cons, cleanLines_cons,
        if_neg hj, if_neg hj]
      by_cases hh : isHeaderB (pyStrip line) = true
      · rw [if_pos hh, if_pos hh]
        by_cases hs : sectionKey (pyStrip line) ∈ seen
        · rw [if_pos hs, if_pos hs, ih]
        · rw [if_neg hs, if_neg hs, ih]
      · rw [if_neg hh, if_neg hh]
        by_cases hb : pyStrip line ≠ []
        · rw [if_pos hb, if_pos hb, ih]
        · rw [if_neg hb, if_neg hb]
          by_cases hf : flag = true
          · rw [if_pos hf, if_pos hf, ih]
          · rw [if_neg hf, if_neg hf, ih]

theorem hasJunk_nil : hasJunk ([] : List Char) = false := by decide

theorem cleanLines_blank_nil (seen : List (List Char)) :
    cleanLines seen false [[]] = [] := rfl

/-- The cleanup of the whole input equals the cleanup of the lines
strictly before the first junk-marker line. -/
theorem clean_eq_clean_takeWhile (t : List Char) :
    clean t = clean (joinNl ((splitNl t).takeWhile (fun l => !hasJunk (pyStrip l)))) := by
  have hmain : cleanLines [] false
      (splitNl (joinNl ((splitNl t).takeWhile (fun l => !hasJunk (pyStrip l))))) =
      cleanLines [] false (splitNl t) := by
    cases htw : (splitNl t).takeWhile (fun l => !hasJunk (pyStrip l)) with
    | nil =>
      rw [cleanLines_takeWhile_junk [] false (splitNl t), htw]
      decide
    | cons h0 t0 =>
      rw [splitNl_joinNl (by simp)
        (fun l hl => no_nl_of_mem_splitNl (List.takeWhile_subset _ (htw ▸ hl)))]
      rw [cleanLines_takeWhile_junk [] false (splitNl t), htw]
  unfold clean
  rw [hmain]

/-- C1: if some input line contains a junk marker, `_clean_soap_output`
discards that line and all later lines: the result is the cleanup of the
lines strictly before the first junk-marker line.  In particular the two
concrete examples of the spec hold. -/
theorem c1_junk_truncation :
    (∀ s : String, (∃ l ∈ splitNl s.data, ∃ m ∈ junkMarkers, m <:+: l) →
      cleanStr s =
        cleanStr ⟨joinNl ((splitNl s.data).takeWhile (fun l => !hasJunk (pyStrip l)))⟩) ∧
    cleanStr "- Subjective: tired\n- Plan: rest\nPatient transcription: blah blah" =
      "- Subjective: tired\n- Plan: rest" ∧
    cleanStr "Detected emotion: anxious" = "" := by
  refine ⟨fun s _ => ?_, by decide, by decide⟩
  show (⟨clean s.data⟩ : String) = ⟨clean (joinNl ((splitNl s.data).takeWhile
    (fun l => !hasJunk (pyStrip l))))⟩
  rw [clean_eq_clean_takeWhile s.data]

/-- Witness for C1 at the spec's concrete truncation example. -/
theorem c1_junk_truncation_witness :
    cleanStr "- Subjective: tired\n- Plan: rest\nPatient transcription: blah blah" =
      cleanStr ⟨joinNl ((splitNl
        "- Subjective: tired\n- Plan: rest\nPatient transcription: blah blah".data).takeWhile
        (fun l => !hasJunk (pyStrip l)))⟩ :=
  c1_junk_truncation.1 _ (by decide)

/-- C3: the output of `_clean_soap_output` contains no occurrence of any
of the seven junk-marker substrings. -/
theorem c3_output_marker_free (s : String) :
    ∀ m ∈ junkMarkers, ¬ m <:+: (cleanStr s).data := by
  intro m hm hcon
  have hx : (cleanStr s).data =
      pyStrip (finalSweep (collapseNl (joinNl (cleanLines [] false (splitNl s.data))))) :=
    rfl
  rw [hx, finalSweep_eq_self (marker_free_pre_sweep s.data)] at hcon
  exact marker_free_pre_sweep s.data m hm (hcon.trans (infix_of_pyStrip _))

/-- Witness for C3: the first marker does not occur in a cleaned output. -/
theorem c3_output_marker_free_witness :
    ¬ "Patient transcription:".data <:+:
      (cleanStr "- Subjective: ok\nPatient transcription: echo").data :=
  c3_output_marker_free "- Subjective: ok\nPatient transcription: echo"
    "Patient transcription:".data (by decide)

/-- C10: the final junk-marker sweep never changes the result:
`_clean_soap_output` equals the variant of itself with the sweep
removed. -/
theorem c10_sweep_redundant (s : String) : cleanStr s = cleanNoSweepStr s := by
  have h : clean s.data = cleanNoSweep s.data := by
    unfold clean cleanNoSweep
    rw [finalSweep_eq_self (marker_free_pre_sweep s.data)]
  show (⟨clean s.data⟩ : String) = ⟨cleanNoSweep s.data⟩
  rw [h]

/-! ### Newline runs in the output -/

/-- Length of the leading newline run. -/
def leadNl (t : List Char) : Nat := (t.takeWhile (fun c => c == '\n')).length

theorem leadNl_cons_nl (t : List Char) : leadNl ('\n' :: t) = leadNl t + 1 := by
  simp [leadNl, List.takeWhile_cons_of_pos]

theorem leadNl_cons_ne {c : Char} (t : List Char) (h : c ≠ '\n') :
    leadNl (c :: t) = 0 := by
  simp [leadNl, List.takeWhile_cons_of_neg, h]

theorem two_nl_prefix_leadNl {t : List Char} (h : ['\n', '\n'] <+: t) :
    2 ≤ leadNl t := by
  obtain ⟨r, rfl⟩ := h
  rw [List.cons_append, List.cons_append, leadNl_cons_nl, leadNl_cons_nl]
  omega

/-- After collapsing, no run of three or more newlines remains, and the
leading run is bounded by the counter headroom. -/
theorem collapseNlAux_no_triple :
    ∀ (t : List Char) (k : Nat), k ≤ 2 →
      ¬ (['\n', '\n', '\n'] <:+: collapseNlAux k t) ∧
        leadNl (collapseNlAux k t) ≤ 2 - k := by
  intro t
  induction t with
  | nil =>
    intro k _
    constructor
    · intro hcon
      simpa [collapseNlAux] using List.infix_nil.mp hcon
    · simp [collapseNlAux, leadNl]
  | cons c cs ih =>
    intro k hk
    by_cases hc : c = '\n'
    · subst hc
      by_cases h2 : 2 ≤ k
      · rw [collapseNlAux, if_pos rfl, if_pos h2]
        exact ih k hk
      · rw [collapseNlAux, if_pos rfl, if_neg h2]
        obtain ⟨hnt, hlead⟩ := ih (k + 1) (by omega)
        constructor
        · intro hcon
          rcases List.infix_cons_iff.mp hcon with hpre | hinf
          · have h3 : ['\n', '\n'] <+: collapseNlAux (k + 1) cs :=
              (List.cons_prefix_cons.mp hpre).2
            have := two_nl_prefix_leadNl h3
            omega
          · exact hnt hinf
        · rw [leadNl_cons_nl]
          omega
    · rw [collapseNlAux, if_neg hc]
      obtain ⟨hnt, _⟩ := ih 0 (by omega)
      constructor
      · intro hcon
        rcases List.infix_cons_iff.mp hcon with hpre | hinf
        · exact hc (List.cons_prefix_cons.mp hpre).1.symm
        · exact hnt hinf
      · rw [leadNl_cons_ne _ hc]
        omega

/-- C7: the output of `_clean_soap_output` never contains three or more
consecutive newline characters; in particular five newlines between two
content lines collapse to a single blank line. -/
theorem c7_no_triple_newline :
    (∀ s : String, ¬ (['\n', '\n', '\n'] <:+: (cleanStr s).data)) ∧
      cleanStr "a\n\n\n\n\nb" = "a\n\nb" := by
  refine ⟨fun s hcon => ?_, by decide⟩
  have hx : (cleanStr s).data =
      pyStrip (finalSweep (collapseNl (joinNl (cleanLines [] false (splitNl s.data))))) :=
    rfl
  rw [hx, finalSweep_eq_self (marker_free_pre_sweep s.data)] at hcon
  have h1 : ['\n', '\n', '\n'] <:+:
      collapseNlAux 0 (joinNl (cleanLines [] false (splitNl s.data))) :=
    hcon.trans (infix_of_pyStrip _)
  exact (collapseNlAux_no_triple _ 0 (by omega)).1 h1

/-! ### Whitespace-only input -/

theorem isHeaderB_nil : isHeaderB ([] : List Char) = false := by decide

theorem cleanLines_all_blank {lines : List (List Char)} (seen : List (List Char))
    (h : ∀ l ∈ lines, pyStrip l = []) : cleanLines seen false lines = [] := by
  induction lines generalizing seen with
  | nil => rfl
  | cons line rest ih =>
    have hb : pyStrip line = [] := h line (List.mem_cons_self line rest)
    rw [cleanLines_cons, hb, hasJunk_nil, isHeaderB_nil]
    simp only [Bool.false_eq_true, if_false, ne_eq, not_true_eq_false]
    exact ih seen (fun l hl => h l (List.mem_cons_of_mem line hl))

/-- C8: on empty or whitespace-only input `_clean_soap_output` returns
the empty string. -/
theorem c8_whitespace_only (s : String) (h : ∀ c ∈ s.data, isWS c = true) :
    cleanStr s = "" := by
  have hlines : ∀ l ∈ splitNl s.data, pyStrip l = [] := by
    intro l hl
    refine pyStrip_eq_nil_iff.mpr (fun c hc => ?_)
    have hinf : l <:+: s.data := by
      have := infix_joinNl_of_mem hl
      rwa [joinNl_splitNl s.data] at this
    exact h c (hinf.sublist.subset hc)
  have hkept : cleanLines [] false (splitNl s.data) = [] :=
    cleanLines_all_blank [] hlines
  show (⟨clean s.data⟩ : String) = ""
  unfold clean
  rw [hkept]
  rfl

/-- Witness for C8 at the spec's two concrete inputs. -/
theorem c8_whitespace_only_witness :
    cleanStr "" = "" ∧ cleanStr "   \n\n  " = "" :=
  ⟨c8_whitespace_only "" (by decide), c8_whitespace_only "   \n\n  " (by decide)⟩

/-! ### Markdown emphasis markers are not stripped -/

/-- C4 counterexample: on `"**Subjective:** patient tired"` the output
still contains `*` and does not contain `"Subjective: patient tired"`,
refuting the claimed markdown stripping. -/
theorem c4_markdown_counterexample :
    '*' ∈ (cleanStr "**Subjective:** patient tired").data ∧
      ¬ ("Subjective: patient tired".data <:+:
        (cleanStr "**Subjective:** patient tired").data) := by
  decide

/-- C4 (amended): `_clean_soap_output` performs no markdown stripping;
an emphasis-marked line is kept verbatim. -/
theorem c4_markdown_kept_verbatim :
    cleanStr "**Subjective:** patient tired" = "**Subjective:** patient tired" := by
  decide

/-! ### Headers with only whitespace before the colon -/

/-- C9 counterexample: the section key computed for `"- : some text"` is
`"-"`, not the empty string. -/
theorem c9_empty_key_counterexample :
    sectionKey (pyStrip "- : some text".data) = ['-'] ∧
      sectionKey (pyStrip "- : some text".data) ≠ "".data := by
  decide

/-- C9 (amended): every line of the form `"- "` + whitespace + `":"` +
rest has section key `"-"` (the residual dash), so among such lines only
the first is kept and later ones are suppressed as duplicates of that
same key. -/
theorem c9_dash_key_dedup :
    (∀ t r : List Char, (∀ c ∈ t, isWS c = true) →
      sectionKey ('-' :: ' ' :: (t ++ ':' :: r)) = ['-']) ∧
    cleanStr "- : first\n- : second" = "- : first" := by
  refine ⟨fun t r h => ?_, by decide⟩
  have hne : ∀ c ∈ t, decide (c ≠ ':') = true := by
    intro c hc
    have hw := h c hc
    simp only [decide_eq_true_eq]
    intro heq
    rw [heq] at hw
    exact absurd hw (by decide)
  show pyStrip (('-' :: ' ' :: (t ++ ':' :: r)).takeWhile (fun c => c ≠ ':')) = ['-']
  rw [List.takeWhile_cons_of_pos (by decide), List.takeWhile_cons_of_pos (by decide),
    List.takeWhile_append_of_pos hne, List.takeWhile_cons_of_neg (by decide),
    List.append_nil]
  show ((('-' :: ' ' :: t).dropWhile isWS).reverse.dropWhile isWS).reverse = ['-']
  rw [List.dropWhile_cons_of_neg (by decide)]
  have hrev : ('-' :: ' ' :: t).reverse = t.reverse ++ [' ', '-'] := by
    simp
  rw [hrev]
  have hrevws : ∀ c ∈ t.reverse, isWS c = true := by
    intro c hc
    exact h c (List.mem_reverse.mp hc)
  rw [List.dropWhile_append_of_pos hrevws, List.dropWhile_cons_of_pos (by decide),
    List.dropWhile_cons_of_neg (by decide)]
  rfl

/-- Witness for the amended C9 at a concrete whitespace run. -/
theorem c9_dash_key_dedup_witness :
    sectionKey ('-' :: ' ' :: ([' '] ++ ':' :: "x".data)) = ['-'] :=
  c9_dash_key_dedup.1 [' '] "x".data (by decide)

/-! ### Declarative characterization of the per-line pass -/

/-- No earlier line is a header with the same section key. -/
def freshKey (earlier : List (List Char)) (ls : List Char) : Bool :=
  earlier.all (fun e => !(isHeaderB (pyStrip e) && (sectionKey (pyStrip e) == sectionKey ls)))

/-- Declarative description of the per-line pass on junk-free input: a
header line is kept iff no earlier line is a header with the same key; a
nonblank non-header line is always kept; a blank line is kept (as the
empty line) iff some earlier line is nonblank.  Output order is input
order. -/
def keepSpec (earlier : List (List Char)) : List (List Char) → List (List Char)
  | [] => []
  | line :: rest =>
    (if isHeaderB (pyStrip line) then
        (if freshKey earlier (pyStrip line) then [line] else [])
      else if pyStrip line ≠ [] then [line]
      else if earlier.any (fun e => !(pyStrip e).isEmpty) then [[]] else []) ++
      keepSpec (earlier ++ [line]) rest

theorem keepSpec_cons (earlier : List (List Char)) (line : List Char)
    (rest : List (List Char)) :
    keepSpec earlier (line :: rest) =
      (if isHeaderB (pyStrip line) then
          (if freshKey earlier (pyStrip line) then [line] else [])
        else if pyStrip line ≠ [] then [line]
        else if earlier.any (fun e => !(pyStrip e).isEmpty) then [[]] else []) ++
        keepSpec (earlier ++ [line]) rest := rfl

theorem freshKey_eq_false_iff {earlier : List (List Char)} {ls : List Char} :
    freshKey earlier ls = false ↔
      ∃ e ∈ earlier, isHeaderB (pyStrip e) = true ∧
        sectionKey (pyStrip e) = sectionKey ls := by
  simp [freshKey]

theorem cleanLines_eq_keepSpec_aux {rest : List (List Char)}
    {seen earlier : List (List Char)} {flag : Bool}
    (hseen : ∀ k, k ∈ seen ↔ ∃ e ∈ earlier, isHeaderB (pyStrip e) = true ∧
      sectionKey (pyStrip e) = k)
    (hflag : flag = earlier.any (fun e => !(pyStrip e).isEmpty))
    (hjunk : ∀ l ∈ rest, hasJunk (pyStrip l) = false) :
    cleanLines seen flag rest = keepSpec earlier rest := by
  induction rest generalizing seen flag earlier with
  | nil => rfl
  | cons line rest ih =>
    have hj : ¬ hasJunk (pyStrip line) = true := by
      simp [hjunk line (List.mem_cons_self line rest)]
    have hjrest : ∀ l ∈ rest, hasJunk (pyStrip l) = false :=
      fun l hl => hjunk l (List.mem_cons_of_mem line hl)
    rw [cleanLines_cons, keepSpec_cons, if_neg hj]
    by_cases hh : isHeaderB (pyStrip line) = true
    · rw [if_pos hh, if_pos hh]
      by_cases hs : sectionKey (pyStrip line) ∈ seen
      · have hfresh : freshKey earlier (pyStrip line) = false :=
          freshKey_eq_false_iff.mpr ((hseen _).mp hs)
        rw [if_pos hs, hfresh]
        simp only [Bool.false_eq_true, if_false, List.nil_append]
        have hflag2 : flag = true := by
          obtain ⟨e, he, hhe, _⟩ := (hseen _).mp hs
          rw [hflag, List.any_eq_true]
          exact ⟨e, he, by simp [isHeaderB_ne_nil hhe]⟩
        refine ih ?_ ?_ hjrest
        · intro k
          rw [hseen k]
          constructor
          · rintro ⟨e, he, h1, h2⟩
            exact ⟨e, List.mem_append_left _ he, h1, h2⟩
          · rintro ⟨e, he, h1, h2⟩
            rcases List.mem_append.mp he with he2 | he2
            · exact ⟨e, he2, h1, h2⟩
            · obtain rfl : e = line := by simpa using he2
              obtain ⟨e2, he2, h3, h4⟩ := (hseen _).mp hs
              exact ⟨e2, he2, h3, h4.trans h2⟩
        · rw [hflag2, List.any_append]
          have : (earlier.any (fun e => !(pyStrip e).isEmpty)) = true := hflag ▸ hflag2
          rw [this]
          rfl
      · have hfresh : freshKey earlier (pyStrip line) = true := by
          cases hfk : freshKey earlier (pyStrip line) with
          | false => exact absurd ((hseen _).mpr (freshKey_eq_false_iff.mp hfk)) hs
          | true => rfl
        rw [if_neg hs, hfresh, if_pos rfl, List.singleton_append]
        refine congrArg (line :: ·) (ih ?_ ?_ hjrest)
        · intro k
          simp only [List.mem_cons]
          constructor
          · rintro (rfl | hk)
            · exact ⟨line, List.mem_append_right _ (List.mem_cons_self line []),
                hh, rfl⟩
            · obtain ⟨e, he, h1, h2⟩ := (hseen k).mp hk
              exact ⟨e, List.mem_append_left _ he, h1, h2⟩
          · rintro ⟨e, he, h1, h2⟩
            rcases List.mem_append.mp he with he2 | he2
            · exact Or.inr ((hseen k).mpr ⟨e, he2, h1, h2⟩)
            · obtain rfl : e = line := by simpa using he2
              exact Or.inl h2.symm
        · rw [List.any_append]
          simp [isHeaderB_ne_nil hh]
    · rw [if_neg hh, if_neg hh]
      by_cases hb : pyStrip line ≠ []
      · rw [if_pos hb, if_pos hb, List.singleton_append]
        refine congrArg (line :: ·) (ih ?_ ?_ hjrest)
        · intro k
          rw [hseen k]
          constructor
          · rintro ⟨e, he, h1, h2⟩
            exact ⟨e, List.mem_append_left _ he, h1, h2⟩
          · rintro ⟨e, he, h1, h2⟩
            rcases List.mem_append.mp he with he2 | he2
            · exact ⟨e, he2, h1, h2⟩
            · obtain rfl : e = line := by simpa using he2
              exact absurd h1 (by simpa using hh)
        · rw [List.any_append]
          simp [hb]
      · have hb2 : pyStrip line = [] := by simpa using hb
        rw [if_neg hb, if_neg hb, hflag]
        have hany : (earlier ++ [line]).any (fun e => !(pyStrip e).isEmpty) =
            earlier.any (fun e => !(pyStrip e).isEmpty) := by
          rw [List.any_append]
          simp [hb2]
        have hseen2 : ∀ k, k ∈ seen ↔ ∃ e ∈ earlier ++ [line],
            isHeaderB (pyStrip e) = true ∧ sectionKey (pyStrip e) = k := by
          intro k
          rw [hseen k]
          constructor
          · rintro ⟨e, he, h1, h2⟩
            exact ⟨e, List.mem_append_left _ he, h1, h2⟩
          · rintro ⟨e, he, h1, h2⟩
            rcases List.mem_append.mp he with he2 | he2
            · exact ⟨e, he2, h1, h2⟩
            · obtain rfl : e = line := by simpa using he2
              exact absurd h1 (by simpa using hh)
        by_cases hf : earlier.any (fun e => !(pyStrip e).isEmpty) = true
        · rw [if_pos hf, if_pos hf, List.cons_append, List.nil_append]
          exact congrArg (([] : List Char) :: ·) (ih hseen2 hany.symm hjrest)
        · rw [if_neg hf, if_neg hf, List.nil_append]
          exact ih hseen2 hany.symm hjrest

/-- C2: on junk-free input, `_clean_soap_output`'s per-line pass keeps
the first header line for each section key and drops every later header
line with that key, while keeping every distinct-key header and every
nonblank content line in original order (declarative characterization);
plus the spec's concrete deduplication example. -/
theorem c2_header_dedup :
    (∀ lines : List (List Char), (∀ l ∈ lines, hasJunk (pyStrip l) = false) →
      cleanLines [] false lines = keepSpec [] lines) ∧
    cleanStr "- Subjective: A\n- Subjective: B\n- Plan: C" =
      "- Subjective: A\n- Plan: C" := by
  refine ⟨fun lines hj => cleanLines_eq_keepSpec_aux ?_ ?_ hj, by decide⟩
  · intro k
    simp
  · rfl

/-- Witness for C2 at the spec's concrete example. -/
theorem c2_header_dedup_witness :
    cleanLines [] false (splitNl "- Subjective: A\n- Subjective: B\n- Plan: C".data) =
      keepSpec [] (splitNl "- Subjective: A\n- Subjective: B\n- Plan: C".data) :=
  c2_header_dedup.1 _ (by decide)

/-! ### Totality: the fallible model never fails -/

/-- Python `line.split(':')`. -/
def splitColon : List Char → List (List Char)
  | [] => [[]]
  | c :: cs =>
    if c = ':' then [] :: splitColon cs
    else (c :: (splitColon cs).headD []) :: (splitColon cs).tail

/-- `split(':')[0].strip()` with the list indexing modelled as fallible
(Python list indexing raises on an empty list; `none` models the
exception). -/
def sectionKeyE (ls : List Char) : Option (List Char) :=
  ((splitColon ls).head?).map pyStrip

/-- The per-line pass with every potentially raising operation modelled
in `Option`; `none` models an uncaught exception. -/
def cleanLinesE (seen : List (List Char)) (flag : Bool) :
    List (List Char) → Option (List (List Char))
  | [] => some []
  | line :: rest =>
    let ls := pyStrip line
    if hasJunk ls then some []
    else if isHeaderB ls then
      match sectionKeyE ls with
      | none => none
      | some key =>
        if key ∈ seen then cleanLinesE seen flag rest
        else (cleanLinesE (key :: seen) true rest).map (fun r => line :: r)
    else if ls ≠ [] then (cleanLinesE seen true rest).map (fun r => line :: r)
    else if flag then (cleanLinesE seen flag rest).map (fun r => [] :: r)
    else cleanLinesE seen flag rest

/-- `_clean_soap_output` in the fallible model. -/
def cleanE (t : List Char) : Option (List Char) :=
  (cleanLinesE [] false (splitNl t)).map
    (fun kept => pyStrip (finalSweep (collapseNl (joinNl kept))))

theorem cleanLinesE_nil (seen : List (List Char)) (flag : Bool) :
    cleanLinesE seen flag [] = some [] := rfl

theorem cleanLinesE_cons (seen : List (List Char)) (flag : Bool)
    (line : List Char) (rest : List (List Char)) :
    cleanLinesE seen flag (line :: rest) =
      if hasJunk (pyStrip line) then some []
      else if isHeaderB (pyStrip line) then
        match sectionKeyE (pyStrip line) with
        | none => none
        | some key =>
          if key ∈ seen then cleanLinesE seen flag rest
          else (cleanLinesE (key :: seen) true rest).map (fun r => line :: r)
      else if pyStrip line ≠ [] then
        (cleanLinesE seen true rest).map (fun r => line :: r)
      else if flag then (cleanLinesE seen flag rest).map (fun r => [] :: r)
      else cleanLinesE seen flag rest := rfl

theorem splitColon_ne_nil (t : List Char) : splitColon t ≠ [] := by
  cases t with
  | nil => simp [splitColon]
  | cons c cs =>
    by_cases h : c = ':' <;> simp [splitColon, h]

theorem head?_splitColon (ls : List Char) :
    (splitColon ls).head? = some (ls.takeWhile (fun c => c ≠ ':')) := by
  induction ls with
  | nil => rfl
  | cons c cs ih =>
    by_cases h : c = ':'
    · subst h
      rw [show splitColon (':' :: cs) = [] :: splitColon cs by simp [splitColon]]
      rw [List.takeWhile_cons_of_neg (by simp)]
      rfl
    · rw [show splitColon (c :: cs) =
        (c :: (splitColon cs).headD []) :: (splitColon cs).tail by simp [splitColon, h]]
      rw [List.takeWhile_cons_of_pos (by simp [h])]
      cases hsc : splitColon cs with
      | nil => exact absurd hsc (splitColon_ne_nil cs)
      | cons h0 t0 =>
        rw [hsc] at ih
        have h1 : h0 = cs.takeWhile (fun c => c ≠ ':') := by simpa using ih
        simp [h1]

theorem sectionKeyE_eq (ls : List Char) :
    sectionKeyE ls = some (sectionKey ls) := by
  rw [sectionKeyE, head?_splitColon]
  rfl

theorem cleanLinesE_eq (lines : List (List Char)) :
    ∀ (seen : List (List Char)) (flag : Bool),
      cleanLinesE seen flag lines = some (cleanLines seen flag lines) := by
  induction lines with
  | nil => intro seen flag; rfl
  | cons line rest ih =>
    intro seen flag
    rw [cleanLinesE_cons, cleanLines_cons]
    by_cases hj : hasJunk (pyStrip line) = true
    · rw [if_pos hj, if_pos hj]
    · rw [if_neg hj, if_neg hj]
      by_cases hh : isHeaderB (pyStrip line) = true
      · rw [if_pos hh, if_pos hh, sectionKeyE_eq]
        by_cases hs : sectionKey (pyStrip line) ∈ seen
        · simp only [if_pos hs]
          exact ih seen flag
        · simp only [if_neg hs, ih (sectionKey (pyStrip line) :: seen) true]
          rfl
      · rw [if_neg hh, if_neg hh]
        by_cases hb : pyStrip line ≠ []
        · rw [if_pos hb, if_pos hb, ih seen true]
          rfl
        · rw [if_neg hb, if_neg hb]
          by_cases hf : flag = true
          · rw [if_pos hf, if_pos hf, ih seen flag]
            rfl
          · rw [if_neg hf, if_neg hf]
            exact ih seen flag

/-- C5: `_clean_soap_output` is total and pure: in the model where every
potentially raising primitive is fallible, the function always returns
`some` of the pure result, for every input string. -/
theorem c5_total_never_raises (s : String) :
    cleanE s.data = some (cleanStr s).data := by
  rw [cleanE, cleanLinesE_eq]
  rfl

/-! ### Strip algebra -/

theorem dropWhile_head_false {p : Char → Bool} {l t : List Char} {c : Char}
    (h : l.dropWhile p = c :: t) : p c = false := by
  induction l with
  | nil => simp at h
  | cons a l ih =>
    by_cases hpa : p a
    · rw [List.dropWhile_cons_of_pos hpa] at h
      exact ih h
    · rw [List.dropWhile_cons_of_neg hpa] at h
      cases h
      simpa using hpa

theorem dropWhile_self {p : Char → Bool} (l : List Char) :
    (l.dropWhile p).dropWhile p = l.dropWhile p := by
  cases h : l.dropWhile p with
  | nil => rfl
  | cons c t => rw [List.dropWhile_cons_of_neg (by simp [dropWhile_head_false h])]

theorem dropLead_idem (l : List Char) : dropLead (dropLead l) = dropLead l :=
  dropWhile_self l

theorem dropTrail_idem (l : List Char) : dropTrail (dropTrail l) = dropTrail l := by
  unfold dropTrail
  rw [List.reverse_reverse, dropWhile_self]

theorem dropWhile_append_of_ne_nil {p : Char → Bool} {a : List Char}
    (b : List Char) (h : a.dropWhile p ≠ []) :
    (a ++ b).dropWhile p = a.dropWhile p ++ b := by
  rw [List.dropWhile_append]
  simp only [List.isEmpty_iff]
  rw [if_neg h]

theorem dropTrail_append_of_ne_nil {g : List Char} (x : List Char)
    (h : dropTrail g ≠ []) : dropTrail (x ++ g) = x ++ dropTrail g := by
  have h2 : g.reverse.dropWhile isWS ≠ [] := by
    intro h0
    apply h
    unfold dropTrail
    rw [h0]
    rfl
  unfold dropTrail
  rw [List.reverse_append, dropWhile_append_of_ne_nil _ h2, List.reverse_append,
    List.reverse_reverse]

theorem dropTrail_append_allws {x u : List Char} (h : ∀ c ∈ u, isWS c = true) :
    dropTrail (x ++ u) = dropTrail x := by
  unfold dropTrail
  rw [List.reverse_append, List.dropWhile_append_of_pos (by
    intro a ha
    exact h a (List.mem_reverse.mp ha))]

theorem dropTrail_cons (c : Char) (l : List Char) :
    dropTrail (c :: l) =
      if dropTrail l = [] then (if isWS c then [] else [c])
      else c :: dropTrail l := by
  by_cases h : dropTrail l = []
  · rw [if_pos h]
    have h2 : l.reverse.dropWhile isWS = [] := by
      have := congrArg List.reverse h
      rwa [dropTrail, List.reverse_reverse, List.reverse_nil] at this
    unfold dropTrail
    rw [List.reverse_cons, List.dropWhile_append]
    rw [h2]
    by_cases hc : isWS c
    · rw [if_pos hc]
      simp [List.dropWhile_cons_of_pos hc]
    · rw [if_neg hc]
      simp [List.dropWhile_cons_of_neg hc]
  · rw [if_neg h]
    have h2 : l.reverse.dropWhile isWS ≠ [] := by
      intro h0
      apply h
      unfold dropTrail
      rw [h0]
      rfl
    unfold dropTrail
    rw [List.reverse_cons, dropWhile_append_of_ne_nil _ h2, List.reverse_append]
    rfl

theorem dropTrail_eq_nil_of_all {l : List Char} (h : ∀ c ∈ l, isWS c = true) :
    dropTrail l = [] :=
  dropTrail_eq_nil_iff.mpr h

theorem dropLead_dropTrail_comm (l : List Char) :
    dropLead (dropTrail l) = dropTrail (dropLead l) := by
  induction l with
  | nil => rfl
  | cons c l ih =>
    by_cases hws : isWS c
    · rw [dropTrail_cons]
      by_cases h : dropTrail l = []
      · rw [if_pos h, if_pos hws]
        have hall : ∀ x ∈ l, isWS x = true := dropTrail_eq_nil_iff.mp h
        have h1 : dropLead (c :: l) = [] := by
          rw [dropLead_eq_nil_iff]
          intro x hx
          rcases List.mem_cons.mp hx with rfl | hx2
          · exact hws
          · exact hall x hx2
        rw [h1]
        rfl
      · rw [if_neg h]
        have h1 : dropLead (c :: dropTrail l) = dropLead (dropTrail l) := by
          unfold dropLead
          rw [List.dropWhile_cons_of_pos hws]
        have h2 : dropLead (c :: l) = dropLead l := by
          unfold dropLead
          rw [List.dropWhile_cons_of_pos hws]
        rw [h1, h2, ih]
    · have h2 : dropLead (c :: l) = c :: l := by
        unfold dropLead
        rw [List.dropWhile_cons_of_neg hws]
      rw [h2, dropTrail_cons]
      by_cases h : dropTrail l = []
      · rw [if_pos h, if_neg hws]
        have h3 : dropLead [c] = [c] := by
          unfold dropLead
          rw [List.dropWhile_cons_of_neg hws]
        rw [h3]
      · rw [if_neg h]
        have h3 : dropLead (c :: dropTrail l) = c :: dropTrail l := by
          unfold dropLead
          rw [List.dropWhile_cons_of_neg hws]
        rw [h3]

theorem pyStrip_dropLead (l : List Char) : pyStrip (dropLead l) = pyStrip l := by
  unfold pyStrip
  rw [dropLead_idem]

theorem pyStrip_dropTrail (l : List Char) : pyStrip (dropTrail l) = pyStrip l := by
  unfold pyStrip
  rw [← dropLead_dropTrail_comm, ← dropLead_dropTrail_comm, dropTrail_idem]

theorem pyStrip_pyStrip (l : List Char) : pyStrip (pyStrip l) = pyStrip l := by
  show pyStrip (dropTrail (dropLead l)) = pyStrip l
  rw [pyStrip_dropTrail, pyStrip_dropLead]

theorem pyStrip_ne_nil_dropLead {l : List Char} (h : pyStrip l ≠ []) :
    dropLead l ≠ [] := by
  intro h0
  apply h
  unfold pyStrip
  rw [h0]
  rfl

theorem pyStrip_ne_nil_dropTrail {l : List Char} (h : pyStrip l ≠ []) :
    dropTrail l ≠ [] := by
  intro h0
  apply h
  rw [pyStrip_eq_nil_iff]
  exact dropTrail_eq_nil_iff.mp h0

/-! ### Collapse of joined lines, line by line -/

theorem collapseNlAux_nil (k : Nat) : collapseNlAux k [] = [] := rfl

theorem collapse_append_no_nl {l : List Char} (hne : l ≠ []) (hnl : '\n' ∉ l) :
    ∀ (k : Nat) (t : List Char), collapseNlAux k (l ++ t) = l ++ collapseNlAux 0 t := by
  induction l with
  | nil => exact absurd rfl hne
  | cons c l2 ih =>
    intro k t
    have hc : c ≠ '\n' := fun h => hnl (h ▸ List.mem_cons_self c l2)
    rw [List.cons_append, collapseNlAux, if_neg hc]
    cases l2 with
    | nil => rfl
    | cons d l3 =>
      rw [ih (by simp) (fun h => hnl (List.mem_cons_of_mem c h)) 0 t]
      rfl

/-- Collapse a run of blank lines to a single blank line.  `prevBlank`
records whether the previously kept line was blank. -/
def squeezeAux (prevBlank : Bool) : List (List Char) → List (List Char)
  | [] => []
  | l :: rest =>
    if l = [] then
      if prevBlank then squeezeAux true rest
      else [] :: squeezeAux true rest
    else l :: squeezeAux false rest

theorem squeezeAux_ne_nil {ys : List (List Char)} (h : ∃ l ∈ ys, l ≠ []) :
    ∀ b, squeezeAux b ys ≠ [] := by
  induction ys with
  | nil =>
    obtain ⟨l, hl, _⟩ := h
    simp at hl
  | cons l rest ih =>
    intro b
    by_cases hl : l = []
    · subst hl
      have h2 : ∃ x ∈ rest, x ≠ [] := by
        obtain ⟨x, hx, hxne⟩ := h
        rcases List.mem_cons.mp hx with rfl | hx2
        · exact absurd rfl hxne
        · exact ⟨x, hx2, hxne⟩
      rw [squeezeAux, if_pos rfl]
      cases b with
      | true => exact ih h2 true
      | false => simp
    · rw [squeezeAux, if_neg hl]
      simp

theorem squeezeAux_cons_ne {l : List Char} (rest : List (List Char)) (h : l ≠ []) :
    ∀ b, squeezeAux b (l :: rest) = l :: squeezeAux false rest := by
  intro b
  rw [squeezeAux, if_neg h]

theorem last_ne_nil_exists {r : List Char} {t : List (List Char)}
    (h : (r :: t).getLast? ≠ some []) : ∃ x ∈ r :: t, x ≠ [] := by
  have hgl : (r :: t).getLast? = some ((r :: t).getLast (by simp)) :=
    List.getLast?_eq_getLast (r :: t) (by simp)
  refine ⟨(r :: t).getLast (by simp), List.getLast_mem (by simp), ?_⟩
  intro h0
  exact h (by rw [hgl, h0])

/-- The heart of the collapse/line correspondence: after a line break
with one (`b = false`) or two (`b = true`) pending newlines, collapsing
the joined tail equals joining the blank-squeezed tail. -/
theorem collapse_joinNl_squeeze :
    ∀ (rest : List (List Char)), (∀ l ∈ rest, '\n' ∉ l) →
      rest.getLast? ≠ some [] →
      ∀ b : Bool, collapseNlAux (if b then 2 else 1) (joinNl rest) =
        joinNl (squeezeAux b rest) := by
  intro rest
  induction rest with
  | nil =>
    intro _ _ b
    rfl
  | cons l rest2 ih =>
    intro hnl hlast b
    by_cases hl : l = []
    · subst hl
      cases rest2 with
      | nil => exact absurd rfl hlast
      | cons r t =>
        have hlast2 : (r :: t).getLast? ≠ some [] := by
          rwa [List.getLast?_cons_cons] at hlast
        have hnl2 : ∀ x ∈ r :: t, '\n' ∉ x :=
          fun x hx => hnl x (List.mem_cons_of_mem [] hx)
        have hex : ∃ x ∈ r :: t, x ≠ [] := last_ne_nil_exists hlast2
        have h2 := ih hnl2 hlast2 true
        rw [show collapseNlAux (if (true : Bool) then 2 else 1) (joinNl (r :: t)) =
          collapseNlAux 2 (joinNl (r :: t)) from rfl] at h2
        rw [joinNl_cons (by simp), List.nil_append]
        cases b with
        | true =>
          show collapseNlAux 2 ('\n' :: joinNl (r :: t)) =
            joinNl (squeezeAux true ([] :: r :: t))
          rw [show collapseNlAux 2 ('\n' :: joinNl (r :: t)) =
            collapseNlAux 2 (joinNl (r :: t)) from rfl]
          rw [show squeezeAux true ([] :: r :: t) = squeezeAux true (r :: t) from rfl]
          exact h2
        | false =>
          show collapseNlAux 1 ('\n' :: joinNl (r :: t)) =
            joinNl (squeezeAux false ([] :: r :: t))
          rw [show collapseNlAux 1 ('\n' :: joinNl (r :: t)) =
            '\n' :: collapseNlAux 2 (joinNl (r :: t)) from rfl]
          rw [show squeezeAux false ([] :: r :: t) = [] :: squeezeAux true (r :: t)
            from rfl]
          rw [joinNl_cons (squeezeAux_ne_nil hex true), List.nil_append, h2]
    · have hnll : '\n' ∉ l := hnl l (List.mem_cons_self l rest2)
      rw [squeezeAux_cons_ne rest2 hl]
      cases rest2 with
      | nil =>
        show collapseNlAux (if b then 2 else 1) (joinNl [l]) = joinNl [l]
        have h3 := collapse_append_no_nl hl hnll (if b then 2 else 1) []
        rwa [List.append_nil, collapseNlAux_nil, List.append_nil] at h3
      | cons r t =>
        have hlast2 : (r :: t).getLast? ≠ some [] := by
          rwa [List.getLast?_cons_cons] at hlast
        have hnl2 : ∀ x ∈ r :: t, '\n' ∉ x :=
          fun x hx => hnl x (List.mem_cons_of_mem l hx)
        have hex : ∃ x ∈ r :: t, x ≠ [] := last_ne_nil_exists hlast2
        have h2 := ih hnl2 hlast2 false
        rw [show collapseNlAux (if (false : Bool) then 2 else 1) (joinNl (r :: t)) =
          collapseNlAux 1 (joinNl (r :: t)) from rfl] at h2
        rw [joinNl_cons_cons, collapse_append_no_nl hl hnll]
        rw [show collapseNlAux 0 ('\n' :: joinNl (r :: t)) =
          '\n' :: collapseNlAux 1 (joinNl (r :: t)) from rfl]
        rw [h2, joinNl_cons (squeezeAux_ne_nil hex false)]

/-- Top-level form: collapsing the joined accepted lines equals joining
the blank-squeezed lines, provided the first line is nonempty and the
last is not the empty line. -/
theorem collapse_joinNl_top {ys : List (List Char)}
    (hnl : ∀ l ∈ ys, '\n' ∉ l) (hlast : ys.getLast? ≠ some [])
    (hhead : ∀ l t, ys = l :: t → l ≠ []) :
    collapseNl (joinNl ys) = joinNl (squeezeAux false ys) := by
  cases ys with
  | nil => rfl
  | cons l rest =>
    have hl : l ≠ [] := hhead l rest rfl
    have hnll : '\n' ∉ l := hnl l (List.mem_cons_self l rest)
    rw [squeezeAux_cons_ne rest hl]
    cases rest with
    | nil =>
      show collapseNlAux 0 (joinNl [l]) = joinNl [l]
      have h3 := collapse_append_no_nl hl hnll 0 []
      rwa [List.append_nil, collapseNlAux_nil, List.append_nil] at h3
    | cons r t =>
      have hlast2 : (r :: t).getLast? ≠ some [] := by
        rwa [List.getLast?_cons_cons] at hlast
      have hnl2 : ∀ x ∈ r :: t, '\n' ∉ x :=
        fun x hx => hnl x (List.mem_cons_of_mem l hx)
      have hex : ∃ x ∈ r :: t, x ≠ [] := last_ne_nil_exists hlast2
      have h2 := collapse_joinNl_squeeze (r :: t) hnl2 hlast2 false
      rw [show collapseNlAux (if (false : Bool) then 2 else 1) (joinNl (r :: t)) =
        collapseNlAux 1 (joinNl (r :: t)) from rfl] at h2
      rw [joinNl_cons_cons]
      unfold collapseNl
      rw [collapse_append_no_nl hl hnll]
      rw [show collapseNlAux 0 ('\n' :: joinNl (r :: t)) =
        '\n' :: collapseNlAux 1 (joinNl (r :: t)) from rfl]
      rw [h2, joinNl_cons (squeezeAux_ne_nil hex false)]


/-! ### Trailing blank lines are absorbed by the final strip -/

theorem joinNl_append_single {xs : List (List Char)} (l : List Char) (h : xs ≠ []) :
    joinNl (xs ++ [l]) = joinNl xs ++ '\n' :: l := by
  induction xs with
  | nil => exact absurd rfl h
  | cons x xs2 ih =>
    cases xs2 with
    | nil => rfl
    | cons y t =>
      have h1 : (x :: y :: t) ++ [l] = x :: ((y :: t) ++ [l]) := rfl
      rw [h1, joinNl_cons (by simp), ih (by simp), joinNl_cons_cons]
      simp

theorem pyStrip_append_allws {x u : List Char} (h : ∀ c ∈ u, isWS c = true) :
    pyStrip (x ++ u) = pyStrip x := by
  by_cases hx : dropLead x = []
  · have hxall : ∀ c ∈ x, isWS c = true := dropLead_eq_nil_iff.mp hx
    have h1 : pyStrip (x ++ u) = [] := pyStrip_eq_nil_iff.mpr (by
      intro c hc
      rcases List.mem_append.mp hc with h2 | h2
      · exact hxall c h2
      · exact h c h2)
    have h2 : pyStrip x = [] := pyStrip_eq_nil_iff.mpr hxall
    rw [h1, h2]
  · have h1 : dropLead (x ++ u) = dropLead x ++ u :=
      dropWhile_append_of_ne_nil u hx
    show dropTrail (dropLead (x ++ u)) = dropTrail (dropLead x)
    rw [h1, dropTrail_append_allws h]

theorem collapse_snoc_nl :
    ∀ (s : List Char) (k : Nat), ∃ u, collapseNlAux k (s ++ ['\n']) =
      collapseNlAux k s ++ u ∧ (∀ c ∈ u, isWS c = true) := by
  intro s
  induction s with
  | nil =>
    intro k
    by_cases h2 : 2 ≤ k
    · refine ⟨[], ?_, by simp⟩
      show collapseNlAux k ['\n'] = [] ++ []
      rw [collapseNlAux, if_pos rfl, if_pos h2, collapseNlAux_nil]
      rfl
    · refine ⟨['\n'], ?_, by decide⟩
      show collapseNlAux k ['\n'] = [] ++ ['\n']
      rw [collapseNlAux, if_pos rfl, if_neg h2, collapseNlAux_nil]
      rfl
  | cons c s2 ih =>
    intro k
    by_cases hc : c = '\n'
    · subst hc
      by_cases h2 : 2 ≤ k
      · obtain ⟨u, hu, hws⟩ := ih k
        refine ⟨u, ?_, hws⟩
        rw [List.cons_append, collapseNlAux, if_pos rfl, if_pos h2, hu,
          collapseNlAux, if_pos rfl, if_pos h2]
      · obtain ⟨u, hu, hws⟩ := ih (k + 1)
        refine ⟨u, ?_, hws⟩
        rw [List.cons_append, collapseNlAux, if_pos rfl, if_neg h2, hu,
          collapseNlAux, if_pos rfl, if_neg h2]
        rfl
    · obtain ⟨u, hu, hws⟩ := ih 0
      refine ⟨u, ?_, hws⟩
      rw [List.cons_append, collapseNlAux, if_neg hc, hu, collapseNlAux, if_neg hc]
      rfl

theorem pyStrip_collapse_snoc_blank {xs : List (List Char)} (h : xs ≠ []) :
    pyStrip (collapseNl (joinNl (xs ++ [[]]))) = pyStrip (collapseNl (joinNl xs)) := by
  rw [joinNl_append_single [] h]
  obtain ⟨u, hu, hws⟩ := collapse_snoc_nl (joinNl xs) 0
  unfold collapseNl
  rw [show joinNl xs ++ '\n' :: [] = joinNl xs ++ ['\n'] from rfl, hu,
    pyStrip_append_allws hws]

/-- Remove trailing blank lines. -/
def dropTrailBlanks (ys : List (List Char)) : List (List Char) :=
  (ys.reverse.dropWhile (fun l => l.isEmpty)).reverse

theorem dropTrailBlanks_eq_self {ys : List (List Char)}
    (h : ys.getLast? ≠ some []) : dropTrailBlanks ys = ys := by
  unfold dropTrailBlanks
  cases hr : ys.reverse with
  | nil =>
    rw [List.reverse_eq_nil_iff.mp hr]
    rfl
  | cons c t =>
    have hc : c ≠ [] := by
      intro h0
      apply h
      rw [← List.head?_reverse, hr, h0]
      rfl
    rw [List.dropWhile_cons_of_neg (by simp [hc]), ← hr, List.reverse_reverse]

theorem dropTrailBlanks_snoc_blank (xs : List (List Char)) :
    dropTrailBlanks (xs ++ [[]]) = dropTrailBlanks xs := by
  unfold dropTrailBlanks
  rw [List.reverse_append]
  rw [show ([[]] : List (List Char)).reverse ++ xs.reverse = [] :: xs.reverse from rfl]
  rw [List.dropWhile_cons_of_pos (by simp)]

/-- Dropping the trailing blank lines does not change the final cleaned
text. -/
theorem clean_post_eq_core :
    ∀ (n : Nat) (ys : List (List Char)), ys.length ≤ n → ys.head? ≠ some [] →
      pyStrip (collapseNl (joinNl ys)) =
        pyStrip (collapseNl (joinNl (dropTrailBlanks ys))) := by
  intro n
  induction n with
  | zero =>
    intro ys hlen _
    have h0 : ys = [] := List.length_eq_zero.mp (Nat.le_zero.mp hlen)
    rw [h0]
    rfl
  | succ n ih =>
    intro ys hlen hhead
    by_cases hlast : ys.getLast? = some []
    · have hne : ys ≠ [] := by
        intro h0
        rw [h0] at hlast
        simp at hlast
      have hgl : ys.getLast hne = [] := by
        have h1 := List.getLast?_eq_getLast ys hne
        rw [hlast] at h1
        exact (Option.some_inj.mp h1).symm
      have hsplit : ys.dropLast ++ [[]] = ys := by
        have h1 := List.dropLast_concat_getLast hne
        rwa [hgl] at h1
      have hdlne : ys.dropLast ≠ [] := by
        intro h0
        rw [h0, List.nil_append] at hsplit
        rw [← hsplit] at hhead
        exact hhead rfl
      have hheaddl : ys.dropLast.head? ≠ some [] := by
        cases hys : ys with
        | nil => exact absurd hys hne
        | cons y0 ys2 =>
          cases hys2 : ys2 with
          | nil => simp
          | cons y1 ys3 =>
            rw [List.dropLast_cons₂]
            rw [hys] at hhead
            simpa using hhead
      have hlendl : ys.dropLast.length ≤ n := by
        have h1 : ys.length = ys.dropLast.length + 1 := by
          rw [List.length_dropLast]
          have h2 : 1 ≤ ys.length := by
            cases ys with
            | nil => exact absurd rfl hne
            | cons a b => simp
          omega
        omega
      calc pyStrip (collapseNl (joinNl ys))
          = pyStrip (collapseNl (joinNl (ys.dropLast ++ [[]]))) := by rw [hsplit]
        _ = pyStrip (collapseNl (joinNl ys.dropLast)) :=
            pyStrip_collapse_snoc_blank hdlne
        _ = pyStrip (collapseNl (joinNl (dropTrailBlanks ys.dropLast))) :=
            ih ys.dropLast hlendl hheaddl
        _ = pyStrip (collapseNl (joinNl (dropTrailBlanks ys))) := by
            have h9 : dropTrailBlanks ys = dropTrailBlanks ys.dropLast := by
              conv_lhs => rw [← hsplit]
              rw [dropTrailBlanks_snoc_blank]
            rw [h9]
    · rw [dropTrailBlanks_eq_self hlast]

/-! ### Collapse is the identity on already-collapsed text -/

theorem collapse_eq_self_of_noTriple :
    ∀ (t : List Char) (k : Nat), k ≤ 2 →
      ¬ (['\n', '\n', '\n'] <:+: (List.replicate k '\n' ++ t)) →
      collapseNlAux k t = t := by
  intro t
  induction t with
  | nil =>
    intro k _ _
    rfl
  | cons c cs ih =>
    intro k hk hnt
    by_cases hc : c = '\n'
    · subst hc
      by_cases h2 : 2 ≤ k
      · exfalso
        have hk2 : k = 2 := by omega
        subst hk2
        exact hnt ⟨[], cs, rfl⟩
      · rw [collapseNlAux, if_pos rfl, if_neg h2]
        congr 1
        refine ih (k + 1) (by omega) ?_
        intro hcon
        apply hnt
        have heq : List.replicate (k + 1) '\n' ++ cs =
            List.replicate k '\n' ++ '\n' :: cs := by
          rw [List.replicate_succ', List.append_assoc]
          rfl
        rwa [heq] at hcon
    · rw [collapseNlAux, if_neg hc]
      congr 1
      refine ih 0 (by omega) ?_
      intro hcon
      apply hnt
      exact hcon.trans (((List.suffix_cons c cs).trans
        (List.suffix_append (List.replicate k '\n') (c :: cs))).isInfix)

/-! ### Structural facts about the accepted lines -/

/-- The first accepted line, if any, is nonblank. -/
def headNonblank : List (List Char) → Prop
  | [] => True
  | l :: _ => pyStrip l ≠ []

theorem cleanLines_head_nonblank (lines : List (List Char)) :
    ∀ seen : List (List Char), headNonblank (cleanLines seen false lines) := by
  induction lines with
  | nil =>
    intro seen
    trivial
  | cons line rest ih =>
    intro seen
    rw [cleanLines_cons]
    by_cases hj : hasJunk (pyStrip line) = true
    · rw [if_pos hj]
      trivial
    · rw [if_neg hj]
      by_cases hh : isHeaderB (pyStrip line) = true
      · rw [if_pos hh]
        by_cases hs : sectionKey (pyStrip line) ∈ seen
        · rw [if_pos hs]
          exact ih seen
        · rw [if_neg hs]
          exact isHeaderB_ne_nil hh
      · rw [if_neg hh]
        by_cases hb : pyStrip line ≠ []
        · rw [if_pos hb]
          exact hb
        · rw [if_neg hb]
          rw [if_neg (by simp)]
          exact ih seen

/-- The section keys of the header lines of a line list (in order). -/
def headerKeys (ys : List (List Char)) : List (List Char) :=
  (ys.filter (fun l => isHeaderB (pyStrip l))).map (fun l => sectionKey (pyStrip l))

theorem headerKeys_cons_pos {l : List Char} (ys : List (List Char))
    (h : isHeaderB (pyStrip l) = true) :
    headerKeys (l :: ys) = sectionKey (pyStrip l) :: headerKeys ys := by
  simp [headerKeys, List.filter_cons, h]

theorem headerKeys_cons_neg {l : List Char} (ys : List (List Char))
    (h : ¬ isHeaderB (pyStrip l) = true) :
    headerKeys (l :: ys) = headerKeys ys := by
  simp [headerKeys, List.filter_cons, h]

/-- The keys of the headers accepted by the pass are distinct and
disjoint from the seen set. -/
theorem cleanLines_headerKeys (lines : List (List Char)) :
    ∀ (seen : List (List Char)) (flag : Bool),
      (headerKeys (cleanLines seen flag lines)).Nodup ∧
        ∀ k ∈ headerKeys (cleanLines seen flag lines), k ∉ seen := by
  induction lines with
  | nil =>
    intro seen flag
    exact ⟨List.nodup_nil, by simp [cleanLines_nil, headerKeys]⟩
  | cons line rest ih =>
    intro seen flag
    rw [cleanLines_cons]
    by_cases hj : hasJunk (pyStrip line) = true
    · rw [if_pos hj]
      exact ⟨List.nodup_nil, by simp [headerKeys]⟩
    · rw [if_neg hj]
      by_cases hh : isHeaderB (pyStrip line) = true
      · rw [if_pos hh]
        by_cases hs : sectionKey (pyStrip line) ∈ seen
        · rw [if_pos hs]
          exact ih seen flag
        · rw [if_neg hs]
          obtain ⟨h1, h2⟩ := ih (sectionKey (pyStrip line) :: seen) true
          rw [headerKeys_cons_pos _ hh]
          constructor
          · rw [List.nodup_cons]
            exact ⟨fun hmem => h2 _ hmem (List.mem_cons_self _ _), h1⟩
          · intro k hk
            rcases List.mem_cons.mp hk with rfl | hk2
            · exact hs
            · exact fun hmem => h2 k hk2 (List.mem_cons_of_mem _ hmem)
      · rw [if_neg hh]
        by_cases hb : pyStrip line ≠ []
        · rw [if_pos hb]
          rw [headerKeys_cons_neg _ hh]
          exact ih seen true
        · rw [if_neg hb]
          by_cases hf : flag = true
          · rw [if_pos hf]
            rw [headerKeys_cons_neg _ (by rw [show pyStrip ([] : List Char) = [] from rfl, isHeaderB_nil]; simp)]
            exact ih seen flag
          · rw [if_neg hf]
            exact ih seen flag

/-- On a line list satisfying the output invariants, the per-line pass
with a populated accumulator is the identity. -/
theorem cleanLines_id_of_seen (ys : List (List Char)) :
    ∀ seen : List (List Char),
      (∀ l ∈ ys, hasJunk (pyStrip l) = false) →
      (∀ l ∈ ys, pyStrip l = [] → l = []) →
      (headerKeys ys).Nodup →
      (∀ k ∈ headerKeys ys, k ∉ seen) →
      cleanLines seen true ys = ys := by
  induction ys with
  | nil =>
    intro seen _ _ _ _
    rfl
  | cons l rest ih =>
    intro seen hjunk hblank hnodup hdisj
    rw [cleanLines_cons,
      if_neg (by simp [hjunk l (List.mem_cons_self l rest)])]
    by_cases hh : isHeaderB (pyStrip l) = true
    · have hkey : sectionKey (pyStrip l) ∉ seen :=
        hdisj _ (by rw [headerKeys_cons_pos _ hh]; exact List.mem_cons_self _ _)
      rw [if_pos hh, if_neg hkey]
      congr 1
      have hhk := headerKeys_cons_pos rest hh
      refine ih (sectionKey (pyStrip l) :: seen)
        (fun x hx => hjunk x (List.mem_cons_of_mem l hx))
        (fun x hx => hblank x (List.mem_cons_of_mem l hx)) ?_ ?_
      · have := hnodup
        rw [hhk, List.nodup_cons] at this
        exact this.2
      · intro k hk
        have hne : k ≠ sectionKey (pyStrip l) := by
          have := hnodup
          rw [hhk, List.nodup_cons] at this
          intro h0
          exact this.1 (h0 ▸ hk)
        intro hmem
        rcases List.mem_cons.mp hmem with h0 | h0
        · exact hne h0
        · exact hdisj k (by rw [hhk]; exact List.mem_cons_of_mem _ hk) h0
    · rw [if_neg hh]
      have hrest : cleanLines seen true rest = rest := by
        refine ih seen
          (fun x hx => hjunk x (List.mem_cons_of_mem l hx))
          (fun x hx => hblank x (List.mem_cons_of_mem l hx)) ?_ ?_
        · rw [headerKeys_cons_neg rest hh] at hnodup
          exact hnodup
        · intro k hk
          exact hdisj k (by rw [headerKeys_cons_neg rest hh]; exact hk)
      by_cases hb : pyStrip l ≠ []
      · rw [if_pos hb, hrest]
      · have hl : l = [] := hblank l (List.mem_cons_self l rest) (by simpa using hb)
        rw [if_neg hb, if_pos rfl, hrest, hl]

/-- On a line list satisfying the output invariants with a nonblank
first line, the whole per-line pass is the identity. -/
theorem cleanLines_id (ys : List (List Char))
    (hjunk : ∀ l ∈ ys, hasJunk (pyStrip l) = false)
    (hblank : ∀ l ∈ ys, pyStrip l = [] → l = [])
    (hnodup : (headerKeys ys).Nodup)
    (hhead : headNonblank ys) :
    cleanLines [] false ys = ys := by
  cases ys with
  | nil => rfl
  | cons l rest =>
    have hlb : pyStrip l ≠ [] := hhead
    rw [cleanLines_cons,
      if_neg (by simp [hjunk l (List.mem_cons_self l rest)])]
    have hrest : ∀ seen1 : List (List Char),
        (∀ k ∈ headerKeys rest, k ∉ seen1) → cleanLines seen1 true rest = rest := by
      intro seen1 hdisj
      refine cleanLines_id_of_seen rest seen1
        (fun x hx => hjunk x (List.mem_cons_of_mem l hx))
        (fun x hx => hblank x (List.mem_cons_of_mem l hx)) ?_ hdisj
      by_cases hh : isHeaderB (pyStrip l) = true
      · rw [headerKeys_cons_pos rest hh, List.nodup_cons] at hnodup
        exact hnodup.2
      · rwa [headerKeys_cons_neg rest hh] at hnodup
    by_cases hh : isHeaderB (pyStrip l) = true
    · rw [if_pos hh, if_neg (by simp)]
      congr 1
      refine hrest _ ?_
      intro k hk
      rw [headerKeys_cons_pos rest hh, List.nodup_cons] at hnodup
      intro hmem
      rcases List.mem_cons.mp hmem with h0 | h0
      · exact hnodup.1 (h0 ▸ hk)
      · simp at h0
    · rw [if_neg hh, if_pos hlb]
      congr 1
      exact hrest [] (by simp)

/-! ### Stripping the edges of the line list -/

/-- Strip leading whitespace of the first line. -/
def stripFirst : List (List Char) → List (List Char)
  | [] => []
  | l :: rest => dropLead l :: rest

/-- Strip trailing whitespace of the last line. -/
def stripLast : List (List Char) → List (List Char)
  | [] => []
  | [l] => [dropTrail l]
  | l :: rest => l :: stripLast rest

theorem stripLast_cons₂ (l r : List Char) (t : List (List Char)) :
    stripLast (l :: r :: t) = l :: stripLast (r :: t) := rfl

theorem stripLast_append (g : List Char) :
    ∀ xs : List (List Char), stripLast (xs ++ [g]) = xs ++ [dropTrail g] := by
  intro xs
  induction xs with
  | nil => rfl
  | cons x xs2 ih =>
    cases xs2 with
    | nil => rfl
    | cons y t =>
      rw [show ((x :: y :: t) ++ [g]) = x :: ((y :: t) ++ [g]) from rfl,
        show ((y :: t) ++ [g]) = y :: (t ++ [g]) from rfl, stripLast_cons₂]
      rw [show (y :: (t ++ [g])) = ((y :: t) ++ [g]) from rfl, ih]
      rfl

theorem dropTrail_joinNl :
    ∀ (ws : List (List Char)) (hne : ws ≠ []),
      pyStrip (ws.getLast hne) ≠ [] →
      dropTrail (joinNl ws) = joinNl (stripLast ws) := by
  intro ws hne hlast
  obtain ⟨xs, g, hsplit, hg⟩ : ∃ xs g, ws = xs ++ [g] ∧ g = ws.getLast hne :=
    ⟨ws.dropLast, ws.getLast hne, (List.dropLast_concat_getLast hne).symm, rfl⟩
  subst hsplit
  have hgt : dropTrail g ≠ [] := pyStrip_ne_nil_dropTrail (hg ▸ hlast)
  cases xs with
  | nil => rfl
  | cons x xs2 =>
    rw [joinNl_append_single g (by simp), stripLast_append g,
      joinNl_append_single (dropTrail g) (by simp)]
    have hgt2 : dropTrail ('\n' :: g) = '\n' :: dropTrail g := by
      rw [dropTrail_cons, if_neg hgt]
    have h1 : dropTrail ((joinNl (x :: xs2)) ++ ('\n' :: g)) =
        joinNl (x :: xs2) ++ dropTrail ('\n' :: g) :=
      dropTrail_append_of_ne_nil _ (by rw [hgt2]; simp)
    rw [h1, hgt2]

/-- Stripping the whole joined text equals stripping the first and last
lines, provided both are nonblank. -/
theorem pyStrip_joinNl (zs : List (List Char)) (hne : zs ≠ [])
    (hh : ∀ l t, zs = l :: t → pyStrip l ≠ [])
    (hlast : pyStrip (zs.getLast hne) ≠ []) :
    pyStrip (joinNl zs) = joinNl (stripLast (stripFirst zs)) := by
  cases zs with
  | nil => exact absurd rfl hne
  | cons l rest =>
    have hl : pyStrip l ≠ [] := hh l rest rfl
    cases rest with
    | nil =>
      show pyStrip l = joinNl (stripLast [dropLead l])
      rw [show stripLast [dropLead l] = [dropTrail (dropLead l)] from rfl]
      rfl
    | cons r t =>
      have h1 : dropLead (joinNl (l :: r :: t)) = joinNl (dropLead l :: r :: t) := by
        rw [joinNl_cons_cons, joinNl_cons_cons]
        exact dropWhile_append_of_ne_nil _ (pyStrip_ne_nil_dropLead hl)
      show dropTrail (dropLead (joinNl (l :: r :: t))) =
        joinNl (stripLast (stripFirst (l :: r :: t)))
      rw [h1]
      have hne2 : dropLead l :: r :: t ≠ [] := by simp
      have hlast2 : pyStrip ((dropLead l :: r :: t).getLast hne2) ≠ [] := by
        have he : (dropLead l :: r :: t).getLast hne2 =
            (l :: r :: t).getLast (by simp) := by
          rw [List.getLast_cons_cons, List.getLast_cons_cons]
        rw [he]
        exact hlast
      rw [dropTrail_joinNl (dropLead l :: r :: t) hne2 hlast2]
      rfl

/-! ### Transfer of line invariants -/

theorem squeezeAux_sublist (ys : List (List Char)) :
    ∀ b, List.Sublist (squeezeAux b ys) ys := by
  induction ys with
  | nil =>
    intro b
    simp [squeezeAux]
  | cons l rest ih =>
    intro b
    by_cases hl : l = []
    · subst hl
      rw [squeezeAux, if_pos rfl]
      cases b with
      | true => exact (ih true).cons []
      | false => exact (ih true).cons₂ []
    · rw [squeezeAux, if_neg hl]
      exact (ih false).cons₂ l

theorem getLast?_cons_ne_nil {x : List Char} {X : List (List Char)} (h : X ≠ []) :
    (x :: X).getLast? = X.getLast? := by
  cases X with
  | nil => exact absurd rfl h
  | cons y t => exact List.getLast?_cons_cons

theorem squeezeAux_getLast {ys : List (List Char)} :
    ys.getLast? ≠ some [] →
    ∀ b, (squeezeAux b ys).getLast? = ys.getLast? := by
  induction ys with
  | nil =>
    intro _ b
    rfl
  | cons l rest ih =>
    intro h b
    cases rest with
    | nil =>
      have hl : l ≠ [] := by
        intro h0
        exact h (by rw [h0]; rfl)
      rw [squeezeAux_cons_ne [] hl]
      rfl
    | cons r t =>
      have h2 : (r :: t).getLast? ≠ some [] := by
        rwa [List.getLast?_cons_cons] at h
      have hex : ∃ x ∈ r :: t, x ≠ [] := last_ne_nil_exists h2
      by_cases hl : l = []
      · subst hl
        rw [squeezeAux, if_pos rfl]
        cases b with
        | true =>
          rw [if_pos rfl, ih h2 true, List.getLast?_cons_cons]
        | false =>
          rw [if_neg (by simp), getLast?_cons_ne_nil (squeezeAux_ne_nil hex true),
            ih h2 true, List.getLast?_cons_cons]
      · rw [squeezeAux_cons_ne (r :: t) hl b,
          getLast?_cons_ne_nil (squeezeAux_ne_nil hex false), ih h2 false,
          List.getLast?_cons_cons]

theorem headerKeys_stripFirst (ys : List (List Char)) :
    headerKeys (stripFirst ys) = headerKeys ys := by
  cases ys with
  | nil => rfl
  | cons l rest =>
    show headerKeys (dropLead l :: rest) = headerKeys (l :: rest)
    by_cases hh : isHeaderB (pyStrip l) = true
    · rw [headerKeys_cons_pos rest (by rwa [pyStrip_dropLead]),
        headerKeys_cons_pos rest hh, pyStrip_dropLead]
    · rw [headerKeys_cons_neg rest (by rwa [pyStrip_dropLead]),
        headerKeys_cons_neg rest hh]

theorem headerKeys_stripLast (ys : List (List Char)) :
    headerKeys (stripLast ys) = headerKeys ys := by
  induction ys with
  | nil => rfl
  | cons l rest ih =>
    cases rest with
    | nil =>
      show headerKeys [dropTrail l] = headerKeys [l]
      by_cases hh : isHeaderB (pyStrip l) = true
      · rw [headerKeys_cons_pos [] (by rwa [pyStrip_dropTrail]),
          headerKeys_cons_pos [] hh, pyStrip_dropTrail]
      · rw [headerKeys_cons_neg [] (by rwa [pyStrip_dropTrail]),
          headerKeys_cons_neg [] hh]
    | cons r t =>
      rw [stripLast_cons₂]
      by_cases hh : isHeaderB (pyStrip l) = true
      · rw [headerKeys_cons_pos _ hh, headerKeys_cons_pos _ hh, ih]
      · rw [headerKeys_cons_neg _ hh, headerKeys_cons_neg _ hh, ih]

theorem mem_stripFirst {ys : List (List Char)} {x : List Char}
    (h : x ∈ stripFirst ys) : x ∈ ys ∨ ∃ l ∈ ys, x = dropLead l := by
  cases ys with
  | nil => simp [stripFirst] at h
  | cons l rest =>
    rcases List.mem_cons.mp h with rfl | h2
    · exact Or.inr ⟨l, List.mem_cons_self l rest, rfl⟩
    · exact Or.inl (List.mem_cons_of_mem l h2)

theorem mem_stripLast {x : List Char} :
    ∀ {ys : List (List Char)}, x ∈ stripLast ys →
      x ∈ ys ∨ ∃ l ∈ ys, x = dropTrail l := by
  intro ys
  induction ys with
  | nil => intro h; simp [stripLast] at h
  | cons l rest ih =>
    intro h
    cases rest with
    | nil =>
      rcases List.mem_cons.mp h with rfl | h2
      · exact Or.inr ⟨l, List.mem_cons_self l [], rfl⟩
      · simp at h2
    | cons r t =>
      rw [stripLast_cons₂] at h
      rcases List.mem_cons.mp h with rfl | h2
      · exact Or.inl (List.mem_cons_self x (r :: t))
      · rcases ih h2 with h3 | ⟨l2, hl2, h4⟩
        · exact Or.inl (List.mem_cons_of_mem l h3)
        · exact Or.inr ⟨l2, List.mem_cons_of_mem l hl2, h4⟩

theorem dropTrailBlanks_prefix (ys : List (List Char)) :
    dropTrailBlanks ys <+: ys := by
  unfold dropTrailBlanks
  have h : ys.reverse.dropWhile (fun l => l.isEmpty) <:+ ys.reverse :=
    List.dropWhile_suffix _
  have h2 := List.reverse_prefix.mpr h
  rwa [List.reverse_reverse] at h2

theorem dropWhile_isEmpty_head {X : List (List Char)} {c : List Char}
    {t : List (List Char)}
    (h : X.dropWhile (fun l => l.isEmpty) = c :: t) : c ≠ [] := by
  induction X with
  | nil => simp at h
  | cons a X2 ih =>
    by_cases ha : a.isEmpty = true
    · rw [List.dropWhile_cons_of_pos ha] at h
      exact ih h
    · rw [List.dropWhile_cons_of_neg ha] at h
      cases h
      simpa using ha

theorem dropTrailBlanks_getLast {ys : List (List Char)} :
    (dropTrailBlanks ys).getLast? ≠ some [] := by
  unfold dropTrailBlanks
  cases hX : ys.reverse.dropWhile (fun l => l.isEmpty) with
  | nil => simp
  | cons c t =>
    rw [List.getLast?_reverse]
    simpa using dropWhile_isEmpty_head hX

/-! ### Idempotence -/

/-- The post-processing of any line list satisfying the invariants of
the per-line pass produces a fixed point of `clean`. -/
theorem clean_of_kept (kept : List (List Char))
    (hnl : ∀ l ∈ kept, '\n' ∉ l)
    (hblank : ∀ l ∈ kept, pyStrip l = [] → l = [])
    (hmarkerlines : ∀ l ∈ kept, ∀ m ∈ junkMarkers, ¬ m <:+: l)
    (hnodup : (headerKeys kept).Nodup)
    (hk0 : headNonblank kept) :
    clean (pyStrip (collapseNl (joinNl kept))) =
      pyStrip (collapseNl (joinNl kept)) := by
  cases hkc : kept with
  | nil => decide
  | cons k0 krest =>
  subst hkc
  have hk0nb : pyStrip k0 ≠ [] := hk0
  have hk0ne : k0 ≠ [] := by
    intro h0
    exact hk0nb (by rw [h0]; rfl)
  -- Step 1: drop trailing blank lines.
  have hheadq : (k0 :: krest).head? ≠ some [] := by
    intro h0
    exact hk0ne (by simpa using h0)
  have hcore_eq : pyStrip (collapseNl (joinNl (k0 :: krest))) =
      pyStrip (collapseNl (joinNl (dropTrailBlanks (k0 :: krest)))) :=
    clean_post_eq_core (k0 :: krest).length (k0 :: krest) le_rfl hheadq
  have hcorepre : dropTrailBlanks (k0 :: krest) <+: k0 :: krest :=
    dropTrailBlanks_prefix (k0 :: krest)
  have hcorene : dropTrailBlanks (k0 :: krest) ≠ [] := by
    intro h0
    have h1 : (k0 :: krest).reverse.dropWhile (fun l => l.isEmpty) = [] := by
      have := congrArg List.reverse h0
      rwa [dropTrailBlanks, List.reverse_reverse, List.reverse_nil] at this
    have h2 := List.dropWhile_eq_nil_iff.mp h1 k0 (by simp)
    exact hk0ne (by simpa using h2)
  obtain ⟨crest, hcorec⟩ : ∃ crest, dropTrailBlanks (k0 :: krest) = k0 :: crest := by
    obtain ⟨tail, htail⟩ := hcorepre
    cases hc : dropTrailBlanks (k0 :: krest) with
    | nil => exact absurd hc hcorene
    | cons c cs =>
      rw [hc] at htail
      have hck : c = k0 := by
        have h5 : c :: (cs ++ tail) = k0 :: krest := by simpa using htail
        exact (List.cons_eq_cons.mp h5).1
      exact ⟨cs, by rw [hck]⟩
  have hcoresub : ∀ l ∈ dropTrailBlanks (k0 :: krest), l ∈ k0 :: krest :=
    fun l hl => hcorepre.sublist.subset hl
  have hcorenl : ∀ l ∈ dropTrailBlanks (k0 :: krest), '\n' ∉ l :=
    fun l hl => hnl l (hcoresub l hl)
  have hcorelast : (dropTrailBlanks (k0 :: krest)).getLast? ≠ some [] :=
    dropTrailBlanks_getLast
  -- Step 2: collapse = squeeze at the line level.
  have hzs_eq : collapseNl (joinNl (dropTrailBlanks (k0 :: krest))) =
      joinNl (squeezeAux false (dropTrailBlanks (k0 :: krest))) :=
    collapse_joinNl_top hcorenl hcorelast (by
      intro l t2 h0
      rw [hcorec] at h0
      exact (List.cons_eq_cons.mp h0).1 ▸ hk0ne)
  have hzssub : List.Sublist (squeezeAux false (dropTrailBlanks (k0 :: krest)))
      (dropTrailBlanks (k0 :: krest)) := squeezeAux_sublist _ false
  have hzsne : squeezeAux false (dropTrailBlanks (k0 :: krest)) ≠ [] := by
    refine squeezeAux_ne_nil ⟨k0, ?_, hk0ne⟩ false
    rw [hcorec]
    exact List.mem_cons_self _ _
  have hzshead : squeezeAux false (dropTrailBlanks (k0 :: krest)) =
      k0 :: squeezeAux false crest := by
    rw [hcorec, squeezeAux_cons_ne crest hk0ne false]
  have hzslast : (squeezeAux false (dropTrailBlanks (k0 :: krest))).getLast? =
      (dropTrailBlanks (k0 :: krest)).getLast? :=
    squeezeAux_getLast hcorelast false
  have hzssubkept : ∀ l ∈ squeezeAux false (dropTrailBlanks (k0 :: krest)),
      l ∈ k0 :: krest :=
    fun l hl => hcoresub l (hzssub.subset hl)
  -- Step 3: strip = strip of the edge lines.
  have hys0_eq : pyStrip (joinNl (squeezeAux false (dropTrailBlanks (k0 :: krest)))) =
      joinNl (stripLast (stripFirst
        (squeezeAux false (dropTrailBlanks (k0 :: krest))))) := by
    refine pyStrip_joinNl _ hzsne ?_ ?_
    · intro l t2 h0
      rw [hzshead] at h0
      exact (List.cons_eq_cons.mp h0).1 ▸ hk0nb
    · have hgl : (squeezeAux false (dropTrailBlanks (k0 :: krest))).getLast hzsne ∈
          squeezeAux false (dropTrailBlanks (k0 :: krest)) := List.getLast_mem hzsne
      have hglne : (squeezeAux false (dropTrailBlanks (k0 :: krest))).getLast hzsne ≠ [] := by
        intro h0
        apply hcorelast
        rw [← hzslast, List.getLast?_eq_getLast _ hzsne, h0]
      intro h0
      exact hglne (hblank _ (hzssubkept _ hgl) h0)
  -- Facts about the final line list.
  have hys0ne : stripLast (stripFirst
      (squeezeAux false (dropTrailBlanks (k0 :: krest)))) ≠ [] := by
    rw [hzshead]
    show stripLast (dropLead k0 :: squeezeAux false crest) ≠ []
    cases squeezeAux false crest with
    | nil => simp [stripLast]
    | cons z1 zt =>
      rw [stripLast_cons₂]
      simp
  have hys0infix : ∀ x ∈ stripLast (stripFirst
      (squeezeAux false (dropTrailBlanks (k0 :: krest)))),
      ∃ l ∈ k0 :: krest, x <:+: l ∧ pyStrip x = pyStrip l := by
    intro x hx
    rcases mem_stripLast hx with hx2 | ⟨l2, hl2, rfl⟩
    · rcases mem_stripFirst hx2 with hx3 | ⟨l3, hl3, rfl⟩
      · exact ⟨x, hzssubkept x hx3, List.infix_rfl, rfl⟩
      · exact ⟨l3, hzssubkept l3 hl3, infix_of_dropLead l3, pyStrip_dropLead l3⟩
    · rcases mem_stripFirst hl2 with hx3 | ⟨l3, hl3, rfl⟩
      · exact ⟨l2, hzssubkept l2 hx3, infix_of_dropTrail l2, pyStrip_dropTrail l2⟩
      · exact ⟨l3, hzssubkept l3 hl3, (infix_of_dropTrail _).trans (infix_of_dropLead l3),
          by rw [pyStrip_dropTrail, pyStrip_dropLead]⟩
  have hnodup0 : (headerKeys (stripLast (stripFirst
      (squeezeAux false (dropTrailBlanks (k0 :: krest)))))).Nodup := by
    rw [headerKeys_stripLast, headerKeys_stripFirst]
    refine List.Nodup.sublist ?_ hnodup
    have h1 : List.Sublist (squeezeAux false (dropTrailBlanks (k0 :: krest)))
        (k0 :: krest) := hzssub.trans hcorepre.sublist
    exact (h1.filter _).map _
  have hys0head : headNonblank (stripLast (stripFirst
      (squeezeAux false (dropTrailBlanks (k0 :: krest))))) := by
    rw [hzshead]
    show headNonblank (stripLast (dropLead k0 :: squeezeAux false crest))
    cases squeezeAux false crest with
    | nil =>
      show pyStrip (dropTrail (dropLead k0)) ≠ []
      rw [pyStrip_dropTrail, pyStrip_dropLead]
      exact hk0nb
    | cons z1 zt =>
      rw [stripLast_cons₂]
      show pyStrip (dropLead k0) ≠ []
      rw [pyStrip_dropLead]
      exact hk0nb
  -- Marker freedom of the final text.
  have hmarkkept : ∀ m ∈ junkMarkers, ¬ m <:+: collapseNl (joinNl (k0 :: krest)) := by
    intro m hm hcon
    have h1 := infix_collapseNl (markers_no_nl m hm) hcon
    exact not_infix_joinNl (markers_no_nl m hm) (markers_ne_nil m hm)
      (fun l hl => hmarkerlines l hl m hm) h1
  have hy_chain : pyStrip (collapseNl (joinNl (k0 :: krest))) =
      joinNl (stripLast (stripFirst
        (squeezeAux false (dropTrailBlanks (k0 :: krest))))) := by
    rw [hcore_eq, hzs_eq, hys0_eq]
  have hmarky : ∀ m ∈ junkMarkers, ¬ m <:+: joinNl (stripLast (stripFirst
      (squeezeAux false (dropTrailBlanks (k0 :: krest))))) := by
    intro m hm hcon
    rw [← hy_chain] at hcon
    exact hmarkkept m hm (hcon.trans (infix_of_pyStrip _))
  have hjunk0 : ∀ l ∈ stripLast (stripFirst
      (squeezeAux false (dropTrailBlanks (k0 :: krest)))),
      hasJunk (pyStrip l) = false := by
    intro l hl
    rw [hasJunk_eq_false_iff]
    intro m hm hcon
    exact hmarky m hm ((hcon.trans (infix_of_pyStrip l)).trans (infix_joinNl_of_mem hl))
  have hblank0 : ∀ l ∈ stripLast (stripFirst
      (squeezeAux false (dropTrailBlanks (k0 :: krest)))),
      pyStrip l = [] → l = [] := by
    intro l hl hps
    obtain ⟨l2, hl2, hinf, hpseq⟩ := hys0infix l hl
    have h2 : l2 = [] := hblank l2 hl2 (by rw [← hpseq]; exact hps)
    rw [h2] at hinf
    exact List.infix_nil.mp hinf
  have hnl0 : ∀ l ∈ stripLast (stripFirst
      (squeezeAux false (dropTrailBlanks (k0 :: krest)))), '\n' ∉ l := by
    intro l hl
    obtain ⟨l2, hl2, hinf, _⟩ := hys0infix l hl
    intro hmem
    exact hnl l2 hl2 (hinf.sublist.subset hmem)
  have hnt : ¬ (['\n', '\n', '\n'] <:+: joinNl (stripLast (stripFirst
      (squeezeAux false (dropTrailBlanks (k0 :: krest)))))) := by
    intro hcon
    rw [← hy_chain] at hcon
    exact (collapseNlAux_no_triple (joinNl (k0 :: krest)) 0 (by omega)).1
      (hcon.trans (infix_of_pyStrip _))
  -- Final computation: the second pass leaves everything unchanged.
  rw [hy_chain]
  unfold clean
  rw [splitNl_joinNl hys0ne hnl0]
  rw [cleanLines_id _ hjunk0 hblank0 hnodup0 hys0head]
  have hcol : collapseNl (joinNl (stripLast (stripFirst
      (squeezeAux false (dropTrailBlanks (k0 :: krest)))))) =
      joinNl (stripLast (stripFirst
        (squeezeAux false (dropTrailBlanks (k0 :: krest))))) :=
    collapse_eq_self_of_noTriple _ 0 (by omega) (by simpa using hnt)
  rw [hcol, finalSweep_eq_self hmarky]
  rw [← hys0_eq, pyStrip_pyStrip, hys0_eq]

/-- `_clean_soap_output` is idempotent on every input. -/
theorem clean_idem (t : List Char) : clean (clean t) = clean t := by
  have hy : clean t =
      pyStrip (collapseNl (joinNl (cleanLines [] false (splitNl t)))) := by
    unfold clean
    rw [finalSweep_eq_self (marker_free_pre_sweep t)]
  rw [hy]
  refine clean_of_kept (cleanLines [] false (splitNl t)) ?_ ?_ ?_ ?_ ?_
  · intro l hl
    rcases cleanLines_mem hl with rfl | ⟨hmem, _, _⟩
    · simp
    · exact no_nl_of_mem_splitNl hmem
  · intro l hl hb
    rcases cleanLines_mem hl with rfl | ⟨_, hnb, _⟩
    · rfl
    · exact absurd hb hnb
  · intro l hl m hm
    exact cleanLines_marker_free hm hl
  · exact (cleanLines_headerKeys (splitNl t) [] false).1
  · exact cleanLines_head_nonblank (splitNl t) []

/-- C6: `_clean_soap_output` is idempotent on clean input: for any
string with no junk-marker substring and no two header lines sharing a
section key, cleaning twice equals cleaning once. -/
theorem c6_idempotent (x : String)
    (_h1 : ∀ m ∈ junkMarkers, ¬ m <:+: x.data)
    (_h2 : (headerKeys (splitNl x.data)).Nodup) :
    cleanStr (cleanStr x) = cleanStr x := by
  show (⟨clean (cleanStr x).data⟩ : String) = ⟨clean x.data⟩
  show (⟨clean (clean x.data)⟩ : String) = ⟨clean x.data⟩
  rw [clean_idem]

/-- Witness for C6 at a concrete junk-free, duplicate-free input. -/
theorem c6_idempotent_witness :
    cleanStr (cleanStr "- Subjective: A\n\nplain note") =
      cleanStr "- Subjective: A\n\nplain note" :=
  c6_idempotent "- Subjective: A\n\nplain note" (by decide) (by decide)

end SoapClean
